import Mathlib

/-!
# Verification of the redacta sanitize/placeholder/restore engine

Shallow embedding of the core of the `redacta` repository
(`src/redacta/core/placeholders.py`, `src/redacta/core/pii_spacy.py`,
`src/redacta/core/pipeline.py`, `src/redacta/core/mapping_store.py`,
`src/redacta/adapters/openai.py`).

Modelling conventions:
* Python `str` is embedded as `List Char`; byte strings are embedded at string
  granularity (`Bytes := List Char`), with UTF-8 encode/decode the identity.
  Decode failures are folded into the decrypt capability's `Option`.
* Python dicts are embedded as association lists with dict assignment
  semantics (`dictSet`: overwrite in place, else append) and first-match
  lookup (`assocFind`), which agrees with dict lookup because keys are unique.
* The spaCy NER model and the AES-GCM cipher are external capabilities
  (spec §6): detected candidate spans are a parameter, and encryption is an
  abstract `KMS` structure whose `decrypt` returns `Option` (`none` embeds a
  raised exception).
* `uuid4().hex` is embedded as an explicitly passed `fresh` value.
-/

namespace Redacta

/-- A byte string; modelled at string granularity (see header). -/
abbrev Bytes := List Char

/-- The character class `[A-Z_0-9]` of the placeholder grammar in
`src/redacta/core/placeholders.py` (pattern `@@[A-Z_0-9]+@@`). -/
def isClassChar (c : Char) : Bool :=
  ('A' ≤ c && c ≤ 'Z') || c = '_' || ('0' ≤ c && c ≤ '9')

/-- Decimal digit character, as produced by Python `str` on `0 ≤ n < 10`. -/
def digitChar10 : Nat → Char
  | 0 => '0' | 1 => '1' | 2 => '2' | 3 => '3' | 4 => '4'
  | 5 => '5' | 6 => '6' | 7 => '7' | 8 => '8' | _ => '9'

/-- Fuel-driven accumulator loop computing Python `str(n)` digit by digit. -/
def natDigitsGo : Nat → Nat → List Char → List Char
  | 0, _, acc => acc
  | f + 1, n, acc =>
    if n < 10 then digitChar10 n :: acc
    else natDigitsGo f (n / 10) (digitChar10 (n % 10) :: acc)

/-- Python `str(n)` for a natural number: its decimal digits. -/
def natDigits (n : Nat) : List Char :=
  natDigitsGo (n + 1) n []

/-- The placeholder token `f"@@{label}_{n}@@"` built at
`src/redacta/core/placeholders.py` line 33. -/
def mkPlaceholder (label : List Char) (n : Nat) : List Char :=
  '@' :: '@' :: (label ++ '_' :: natDigits n) ++ ['@', '@']

/-- A detected PII span, `redacta.types.EntitySpan` (the Python field `end`
is called `stop` here because `end` is a Lean keyword). -/
structure EntitySpan where
  label : List Char
  start : Nat
  stop : Nat
  text : List Char
deriving DecidableEq, Repr

/-- First-match association-list lookup: Python `d[k]` / `k in d` for the
dicts we build, whose keys are unique. -/
def assocFind {α : Type} (k : List Char) : List (List Char × α) → Option α
  | [] => none
  | kv :: rest => if kv.1 = k then some kv.2 else assocFind k rest

/-- Python dict assignment `d[k] = v`: overwrite in place if the key exists,
else append at the end (insertion order preserved). -/
def dictSet {α : Type} (m : List (List Char × α)) (k : List Char) (v : α) :
    List (List Char × α) :=
  if m.any (fun kv => kv.1 = k) then
    m.map (fun kv => if kv.1 = k then (k, v) else kv)
  else
    m ++ [(k, v)]

/-- Stable insertion used to embed Python's stable `sorted`: `a` is placed
before the first element `b` of the (already sorted) tail with `le a b`;
on ties the earlier-in-input element stays first. -/
def sortInsert (le : EntitySpan → EntitySpan → Bool) (a : EntitySpan) :
    List EntitySpan → List EntitySpan
  | [] => [a]
  | b :: rest => if le a b then a :: b :: rest else b :: sortInsert le a rest

/-- Stable sort by the boolean total preorder `le` (Python `sorted`). -/
def stableSortBy (le : EntitySpan → EntitySpan → Bool) (l : List EntitySpan) :
    List EntitySpan :=
  l.foldr (sortInsert le) []

/-- Comparison key of `sorted(entities, key=lambda e: e.start, reverse=True)`
(`src/redacta/core/placeholders.py` line 21): start descending, stable. -/
def descStartLe (a b : EntitySpan) : Bool :=
  decide (b.start ≤ a.start)

/-- One iteration of the replacement loop of `replace_with_placeholders`
(`src/redacta/core/placeholders.py` lines 26-36): bump the label counter,
record the mapping entry, splice the placeholder over the span. State is
(result text, mapping, label counters). -/
def rwpStep (st : List Char × List (List Char × List Char) × List (List Char × Nat))
    (e : EntitySpan) :
    List Char × List (List Char × List Char) × List (List Char × Nat) :=
  let c := ((assocFind e.label st.2.2).getD 0) + 1
  let ph := mkPlaceholder e.label c
  (st.1.take e.start ++ ph ++ st.1.drop e.stop,
   dictSet st.2.1 ph e.text,
   dictSet st.2.2 e.label c)

/-- `replace_with_placeholders(text, entities)`
(`src/redacta/core/placeholders.py` lines 7-37): sort the spans by start
descending, then replace each span with a freshly numbered placeholder,
accumulating the placeholder → original-text mapping. -/
def replace_with_placeholders (text : List Char) (entities : List EntitySpan) :
    List Char × List (List Char × List Char) :=
  if entities.isEmpty then (text, [])
  else
    let st := (stableSortBy descStartLe entities).foldl rwpStep (text, [], [])
    (st.1, st.2.1)

/-! ## The placeholder scanner

`restore_from_placeholders` iterates `re.compile(r"@@[A-Z_0-9]+@@").finditer(text)`.
Because the character class excludes `'@'`, this regex admits no backtracking:
a match at position `i` exists iff `text[i] = text[i+1] = '@'`, a nonempty
maximal run of class characters follows, and it is closed by `'@','@'`.
`finditer` yields leftmost, non-overlapping matches and resumes scanning
after each match. We embed this as a single left-to-right pass with a state
recording the leftmost still-viable partial match. -/

/-- Scanner state: `s0` no viable open marker; `s1` a single `'@'` seen;
`s2 run` an opening `"@@"` followed by the class-character run `run` so far;
`s3 run` that run (nonempty) followed by one closing `'@'`. -/
inductive ScanState where
  | s0 : ScanState
  | s1 : ScanState
  | s2 : List Char → ScanState
  | s3 : List Char → ScanState
deriving DecidableEq, Repr

/-- One scanner transition; emits the matched token when it completes. -/
def scanStep (st : ScanState) (c : Char) : ScanState × Option (List Char) :=
  match st with
  | .s0 => if c = '@' then (.s1, none) else (.s0, none)
  | .s1 => if c = '@' then (.s2 [], none) else (.s0, none)
  | .s2 run =>
    if isClassChar c then (.s2 (run ++ [c]), none)
    else if c = '@' then
      (if run.isEmpty then (.s2 [], none) else (.s3 run, none))
    else (.s0, none)
  | .s3 run =>
    if c = '@' then (.s0, some ('@' :: '@' :: run ++ ['@', '@']))
    else (.s0, none)

/-- Run the scanner over the remaining characters. -/
def scanGo (st : ScanState) : List Char → List (List Char)
  | [] => []
  | c :: cs =>
    match scanStep st c with
    | (st', some tok) => tok :: scanGo st' cs
    | (st', none) => scanGo st' cs

/-- All matches of the placeholder grammar `@@[A-Z_0-9]+@@` in `text`, in
order (the tokens produced by `finditer` in `restore_from_placeholders`,
`src/redacta/core/placeholders.py` lines 53-58). -/
def scanTokens (text : List Char) : List (List Char) :=
  scanGo .s0 text

/-- Python `s.replace(old, new, 1)`: replace the leftmost occurrence of
`old`, or return `s` unchanged if `old` does not occur. -/
def replaceFirst (s old new : List Char) : List Char :=
  if old.isPrefixOf s then new ++ s.drop old.length
  else
    match s with
    | [] => []
    | c :: cs => c :: replaceFirst cs old new

/-- `restore_from_placeholders(text, mapping)`
(`src/redacta/core/placeholders.py` lines 41-60): for each grammar match in
`text` (in order), if the matched token is a mapping key, replace the first
remaining occurrence of that token in the evolving result by its value. -/
def restore_from_placeholders (text : List Char)
    (mapping : List (List Char × List Char)) : List Char :=
  (scanTokens text).foldl
    (fun result ph =>
      match assocFind ph mapping with
      | some v => replaceFirst result ph v
      | none => result)
    text

/-! ## Detector overlap resolution (`src/redacta/core/pii_spacy.py`) -/

/-- Signed span length `end - start` (Python ints). -/
def spanLen (e : EntitySpan) : Int :=
  (e.stop : Int) - (e.start : Int)

/-- Comparison key of
`sorted(entities, key=lambda e: (e.start, -(e.end - e.start)))`
(`src/redacta/core/pii_spacy.py` line 139): start ascending, then length
descending, stable. -/
def overlapLe (a b : EntitySpan) : Bool :=
  decide (a.start < b.start) ||
    (decide (a.start = b.start) && decide (spanLen b ≤ spanLen a))

/-- The greedy acceptance loop of `_remove_overlapping`
(`src/redacta/core/pii_spacy.py` lines 141-148): accept a span iff its start
is at least the last accepted end (`last_end` starts at `-1`). -/
def greedyAccept (lastEnd : Int) : List EntitySpan → List EntitySpan
  | [] => []
  | e :: rest =>
    if lastEnd ≤ (e.start : Int) then e :: greedyAccept (e.stop : Int) rest
    else greedyAccept lastEnd rest

/-- `SpaCyPIIDetector._remove_overlapping`
(`src/redacta/core/pii_spacy.py` lines 126-148). -/
def remove_overlapping (entities : List EntitySpan) : List EntitySpan :=
  if entities.isEmpty then []
  else greedyAccept (-1) (stableSortBy overlapLe entities)

/-- Comparison key of the final `entities.sort(key=lambda e: e.start)`
(`src/redacta/core/pii_spacy.py` line 122). -/
def ascStartLe (a b : EntitySpan) : Bool :=
  decide (a.start ≤ b.start)

/-- The in-repo tail of `SpaCyPIIDetector.detect`
(`src/redacta/core/pii_spacy.py` lines 59-124): the spaCy NER model and the
regex matchers are external capabilities producing the `candidates` list;
the repository code then removes overlaps and sorts by start. -/
def detect (candidates : List EntitySpan) : List EntitySpan :=
  stableSortBy ascStartLe (remove_overlapping candidates)

/-! ## Encryption capability and mapping store -/

/-- Encryption capability (spec §6): opaque symmetric encryption.
`decrypt c = none` embeds a raised exception (tamper / format / decode
error); `LocalKMS` (AES-GCM, `src/redacta/kms/local.py`) is one instance. -/
structure KMS where
  encrypt : Bytes → Bytes
  decrypt : Bytes → Option Bytes

/-- A key management service in which decryption always inverts encryption;
used to discharge hypotheses of the form `∀ b, decrypt (encrypt b) = some b`. -/
def idKMS : KMS :=
  { encrypt := fun b => b, decrypt := fun b => some b }

/-- `MappingStore` (`src/redacta/core/mapping_store.py`): an in-memory
`dict[str, bytes]`, embedded as its lookup function. -/
def Store := List Char → Option Bytes

/-- `MappingStore.set`. -/
def storeSet (s : Store) (k : List Char) (v : Bytes) : Store :=
  fun q => if q = k then some v else s q

/-- `MappingStore.remove` (state effect; the returned found-flag is unused
by the pipeline). -/
def storeRemove (s : Store) (k : List Char) : Store :=
  fun q => if q = k then none else s q

/-- The everywhere-empty store. -/
def emptyStore : Store := fun _ => none

/-! ## Pipeline (`src/redacta/core/pipeline.py`) -/

/-- `redacta.types.SanitizedResult`. -/
structure SanitizedResult where
  sanitized_text : List Char
  mapping : List (List Char × Bytes)
  original_text : List Char
  session_id : List Char
  entities : List EntitySpan

/-- The session key `f"{session_id}:{placeholder}"` used at
`src/redacta/core/pipeline.py` lines 64 and 141. -/
def sessionKey (sid ph : List Char) : List Char :=
  sid ++ ':' :: ph

/-- `Pipeline.sanitize_prompt` (`src/redacta/core/pipeline.py` lines 37-74),
embedded fallibly: `none` is a raised exception. The detector's candidate
spans and the fresh `uuid4().hex` value are parameters (external
capabilities).

Line 54 computes the detector's entities; line 56 then calls
`replace_with_placeholders(prompt, entities, label_counters)` with three
positional arguments, but `replace_with_placeholders`
(`src/redacta/core/placeholders.py` line 7) declares exactly two
parameters, so Python raises `TypeError` here on every call: the
session-id defaulting, encryption and store writes of lines 58-66 never
execute, no `SanitizedResult` is ever returned, and the store is left
unchanged (nothing before line 56 mutates it). -/
def sanitize_prompt (_kms : KMS) (_store : Store) (_prompt : List Char)
    (candidates : List EntitySpan) (_session_id : Option (List Char))
    (_fresh : List Char) : Option (SanitizedResult × Store) :=
  let _entities := detect candidates
  none

/-- The body `Pipeline.sanitize_prompt` evidently intends (and its spec
describes): the composition with the call at `pipeline.py` line 56 repaired
in the minimal way, dropping the extra `label_counters` argument so the
two-parameter codec is called as defined. This is NOT the source — the
source raises, see `sanitize_prompt` — and no claim is confirmed through
it; it exists to state, inside the C3/C5/C10 divergence records, what the
unreachable lines 58-74 would compute. `session_id or uuid4().hex` at line
60 falls back to the fresh value when `session_id` is `None` or empty. -/
def sanitize_prompt_repaired (kms : KMS) (store : Store) (prompt : List Char)
    (candidates : List EntitySpan) (session_id : Option (List Char))
    (fresh : List Char) : SanitizedResult × Store :=
  let entities := detect candidates
  let stp := replace_with_placeholders prompt entities
  let sid := match session_id with
    | none => fresh
    | some s => if s = [] then fresh else s
  let enc := stp.2.map fun kv => (kv.1, kms.encrypt kv.2)
  let store' := enc.foldl (fun s kv => storeSet s (sessionKey sid kv.1) kv.2) store
  ({ sanitized_text := stp.1, mapping := enc, original_text := prompt,
     session_id := sid, entities := entities }, store')

/-- The decryption loop shared by `Pipeline.restore_response`
(`src/redacta/core/pipeline.py` lines 111-118) and
`restore_streaming_response` (`src/redacta/adapters/openai.py` lines
272-278): decrypt every mapping entry, falling back to the placeholder
token itself when decryption (or UTF-8 decoding) raises. -/
def decryptMapping (kms : KMS) (mapping : List (List Char × Bytes)) :
    List (List Char × List Char) :=
  mapping.map fun kv =>
    (kv.1, match kms.decrypt kv.2 with
           | some v => v
           | none => kv.1)

/-- `Pipeline.restore_response` (`src/redacta/core/pipeline.py` lines
100-125) with `clear_mappings=False`; with `clear_mappings=True` the store
additionally becomes `clear_session_mappings store r`. -/
def restore_response (kms : KMS) (text : List Char) (r : SanitizedResult) :
    List Char :=
  restore_from_placeholders text (decryptMapping kms r.mapping)

/-- `Pipeline.clear_session_mappings` (`src/redacta/core/pipeline.py` lines
127-142): remove `f"{session_id}:{placeholder}"` for every placeholder key
of the result's mapping. -/
def clear_session_mappings (store : Store) (r : SanitizedResult) : Store :=
  r.mapping.foldl (fun s kv => storeRemove s (sessionKey r.session_id kv.1)) store

/-- `redacta.types.SanitizedChatResult` (string messages). -/
structure SanitizedChatResult where
  sanitized_messages : List (List Char)
  mapping : List (List Char × Bytes)
  session_id : List Char
  entities : List EntitySpan

/-- `Pipeline.sanitize_messages` (`src/redacta/core/pipeline.py` lines
76-98), embedded fallibly (`none` = raised exception): one fresh session
id, message-by-message `sanitize_prompt` at line 87 with the exception
propagating, combined mapping accumulated by `dict.update`. Each message
carries its own detector candidates. With an empty message list the loop
body never runs and an empty result is returned; with any message present
the first `sanitize_prompt` call raises `TypeError` (pipeline.py line 56)
and the whole call raises. -/
def sanitize_messages (kms : KMS) (store : Store)
    (msgs : List (List Char × List EntitySpan)) (fresh : List Char) :
    Option (SanitizedChatResult × Store) :=
  let step := fun (acc : Option (SanitizedChatResult × Store))
      (m : List Char × List EntitySpan) =>
    acc.bind fun st =>
      (sanitize_prompt kms st.2 m.1 m.2 (some fresh) fresh).map fun rs =>
        ({ sanitized_messages := st.1.sanitized_messages ++ [rs.1.sanitized_text],
           mapping := rs.1.mapping.foldl (fun a kv => dictSet a kv.1 kv.2) st.1.mapping,
           session_id := fresh,
           entities := st.1.entities ++ rs.1.entities }, rs.2)
  msgs.foldl step
    (some ({ sanitized_messages := [], mapping := [], session_id := fresh,
             entities := [] }, store))

/-- `Pipeline.sanitize_messages` over the minimally repaired
`sanitize_prompt_repaired` (see there): not the source, which raises on any
nonempty message list; used only inside the C3 divergence record to show
that even repaired, the codec re-initializes its counters on every message
(`placeholders.py` line 23), so numbering resets and `dict.update`
collapses colliding keys. -/
def sanitize_messages_repaired (kms : KMS) (store : Store)
    (msgs : List (List Char × List EntitySpan)) (fresh : List Char) :
    SanitizedChatResult × Store :=
  let step := fun (st : SanitizedChatResult × Store) (m : List Char × List EntitySpan) =>
    let rs := sanitize_prompt_repaired kms st.2 m.1 m.2 (some fresh) fresh
    ({ sanitized_messages := st.1.sanitized_messages ++ [rs.1.sanitized_text],
       mapping := rs.1.mapping.foldl (fun acc kv => dictSet acc kv.1 kv.2) st.1.mapping,
       session_id := fresh,
       entities := st.1.entities ++ rs.1.entities }, rs.2)
  msgs.foldl step
    ({ sanitized_messages := [], mapping := [], session_id := fresh, entities := [] }, store)

/-! ## Streaming restorer (`src/redacta/adapters/openai.py` lines 265-306)

Chunks are embedded as their extracted text payloads (`_extract_chunk_text`
/ `_set_chunk_text` on plain strings are the identity and text write). -/

/-- Does a match of the dangling-open-marker pattern `@@[A-Z_0-9]*$` start
at the head of `s` (i.e. `"@@"` followed by class characters to the end)? -/
def danglingAt : List Char → Bool
  | '@' :: '@' :: rest => rest.all isClassChar
  | _ => false

/-- `re.search(r"@@[A-Z_0-9]*$", s)`: the match, returned as the matched
suffix (the pattern is end-anchored, so a match at `i` is exactly the
suffix from `i`); `search` takes the leftmost such position. -/
def danglingSearch : List Char → Option (List Char)
  | [] => none
  | c :: cs => if danglingAt (c :: cs) then some (c :: cs) else danglingSearch cs

/-- `placeholder_pattern.fullmatch(g)`: is `g` exactly one placeholder
token `@@[A-Z_0-9]+@@`? -/
def isFullPlaceholder (g : List Char) : Bool :=
  match g with
  | '@' :: '@' :: rest =>
    let run := rest.takeWhile isClassChar
    !run.isEmpty && decide (rest.drop run.length = ['@', '@'])
  | _ => false

/-- The safe cut point (`src/redacta/adapters/openai.py` lines 290-294):
everything, unless a dangling open marker that is not itself a complete
placeholder ends the buffer, in which case cut before it. -/
def safeCut (buf : List Char) : Nat :=
  match danglingSearch buf with
  | none => buf.length
  | some g => if isFullPlaceholder g then buf.length else buf.length - g.length

/-- The chunk loop of `restore_streaming_response`
(`src/redacta/adapters/openai.py` lines 280-306): empty-text chunks pass
through untouched; otherwise append to the buffer, emit the restored text
up to the safe cut, retain the rest; at end of stream flush the restored
buffer as one final chunk (if nonempty). -/
def streamGo (mapping : List (List Char × List Char)) (buffer : List Char) :
    List (List Char) → List (List Char)
  | [] => if buffer.isEmpty then [] else [restore_from_placeholders buffer mapping]
  | ch :: rest =>
    if ch.isEmpty then ch :: streamGo mapping buffer rest
    else
      let buf := buffer ++ ch
      let cut := safeCut buf
      restore_from_placeholders (buf.take cut) mapping ::
        streamGo mapping (buf.drop cut) rest

/-- `restore_streaming_response(chunks, pipeline, chat_result)`: decrypt the
whole mapping once up front (with the same per-entry fallback as
`restore_response`), then stream-restore the chunk texts. -/
def restore_streaming_response (kms : KMS)
    (mapping : List (List Char × Bytes)) (chunks : List (List Char)) :
    List (List Char) :=
  streamGo (decryptMapping kms mapping) [] chunks

/-! ## Helper notions used by the theorems -/

/-- `s` contains no two adjacent `'@'` characters. Texts with this property
cannot contain placeholder-grammar collisions; it is the side condition of
round-trip restoration. -/
def noDoubleB : List Char → Bool
  | a :: b :: t => (!(decide (a = '@') && decide (b = '@'))) && noDoubleB (b :: t)
  | _ => true

/-- The successfully decrypted part of an encrypted mapping: entries whose
decryption fails are dropped. -/
def decryptOk (kms : KMS) (mapping : List (List Char × Bytes)) :
    List (List Char × List Char) :=
  mapping.filterMap fun kv =>
    match kms.decrypt kv.2 with
    | some v => some (kv.1, v)
    | none => none

/-- Number of spans carrying the given label. -/
def labelCount (l : List Char) (es : List EntitySpan) : Nat :=
  (es.filter (fun e => e.label = l)).length

/-- The placeholder tokens assigned by `replace_with_placeholders` to a
start-ascending span list: the spans are processed in descending start
order, so the token of a span continues the count of equal-labelled spans
occurring after it. -/
def tokensFor : List EntitySpan → List (List Char)
  | [] => []
  | e :: es' => mkPlaceholder e.label (labelCount e.label es' + 1) :: tokensFor es'

/-- The mapping accumulated by `replace_with_placeholders` on a
start-ascending span list (entries in processing = descending start
order). -/
def mappingFor : List EntitySpan → List (List Char × List Char)
  | [] => []
  | e :: es' =>
    mappingFor es' ++ [(mkPlaceholder e.label (labelCount e.label es' + 1), e.text)]

/-- The substring `text[start:end]` covered by a span. -/
def sliceOf (T : List Char) (e : EntitySpan) : List Char :=
  (T.take e.stop).drop e.start

/-- Interleaving `g₀ ++ s₁ ++ g₁ ++ s₂ ++ g₂ ++ …`: a leading gap followed
by slot/gap pairs. Sanitized text and restored text are both of this form,
with tokens respectively values in the slots. -/
def segJoin (g0 : List Char) (segs : List (List Char × List Char)) : List Char :=
  g0 ++ (segs.map fun sg => sg.1 ++ sg.2).flatten

/-- Numeric value of a decimal digit character. -/
def digitVal (c : Char) : Nat := c.toNat - 48

/-- Decode a decimal digit string (left fold); inverse of `natDigits`. -/
def natVal (l : List Char) : Nat :=
  l.foldl (fun a c => a * 10 + digitVal c) 0

/-- The (token, original value, following gap) segments that sanitization
produces for a start-ascending, non-overlapping span list: each span's
token carries the count of equal-labelled spans after it plus one, its
value is the span's text, and its gap is the original text between its end
and the next span's start (or the end of the text). -/
def segsFor (T : List Char) : List EntitySpan → List (List Char × List Char × List Char)
  | [] => []
  | e :: es' =>
    (mkPlaceholder e.label (labelCount e.label es' + 1),
     e.text,
     match es' with
     | [] => T.drop e.stop
     | e2 :: _ => (T.take e2.start).drop e.stop) :: segsFor T es'

/-- The sanitized text produced for a start-ascending, non-overlapping span
list: the original prefix before the first span, then tokens interleaved
with the original gaps. -/
def rwpText (T : List Char) (es : List EntitySpan) : List Char :=
  match es with
  | [] => T
  | e :: _ => T.take e.start ++ ((segsFor T es).map fun x => x.1 ++ x.2.2).flatten

/-- The value/gap reassembly of the original text from position `p`. -/
def tailAssemble (T : List Char) (p : Nat) (es : List EntitySpan) : List Char :=
  match es with
  | [] => T.drop p
  | e :: _ =>
    (T.take e.start).drop p ++ ((segsFor T es).map fun x => x.2.1 ++ x.2.2).flatten

/-- Example span for `"Send to alice@example.com"` (claim C5's scenario). -/
def aliceSpan : EntitySpan :=
  ⟨("EMAIL".data), 8, 25, ("alice@example.com".data)⟩

/-- Example span for `"Contact bob@example.com"` (claim C5's scenario). -/
def bobSpan : EntitySpan :=
  ⟨("EMAIL".data), 8, 23, ("bob@example.com".data)⟩

/-- First sanitize call of claim C5's scenario (session `sessionA`),
evaluated over the repaired composition (the source call raises, see
`sanitize_prompt`): the result a caller would hold in the claim's
scenario. -/
def c5call1 (kms : KMS) (s0 : Store) : SanitizedResult × Store :=
  sanitize_prompt_repaired kms s0 ("Send to alice@example.com".data) [aliceSpan]
    (some ("sessionA".data)) ("sessionA".data)

/-- Second, independent sanitize call of claim C5's scenario (session
`sessionB`), over the repaired composition, sharing the store left by the
first call. -/
def c5call2 (kms : KMS) (s0 : Store) : SanitizedResult × Store :=
  sanitize_prompt_repaired kms (c5call1 kms s0).2 ("Contact bob@example.com".data)
    [bobSpan] (some ("sessionB".data)) ("sessionB".data)

-- Scanner sanity checks against hand-evaluated Python `finditer` results.
example : scanTokens ("@@EMAIL_1@@".data) = [("@@EMAIL_1@@".data)] := by decide
example : scanTokens ("a@@@A@@b".data) = [("@@A@@".data)] := by decide
example : scanTokens ("@@A@@@@B@@".data) = [("@@A@@".data), ("@@B@@".data)] := by decide
example : scanTokens ("@@A@B@@".data) = [] := by decide
example : scanTokens ("@@Z@@A_1@@".data) = [("@@Z@@".data)] := by decide
example : scanTokens ("x@@@@".data) = [] := by decide
example : restore_from_placeholders ("Hi @@A_1@@ and @@A_1@@".data)
    [(("@@A_1@@".data), ("v".data))] = ("Hi v and v".data) := by decide

-- Pipeline sanity checks (identity encryption): the source call raises on
-- every input; the repaired composition computes the codec outputs.
example :
    sanitize_prompt idKMS emptyStore
      ("Contact alice@example.com and bob@example.com".data)
      [⟨("EMAIL".data), 8, 25, ("alice@example.com".data)⟩,
       ⟨("EMAIL".data), 30, 45, ("bob@example.com".data)⟩]
      none ("f1".data) = none := rfl

example :
    (sanitize_prompt_repaired idKMS emptyStore
      ("Contact alice@example.com and bob@example.com".data)
      [⟨("EMAIL".data), 8, 25, ("alice@example.com".data)⟩,
       ⟨("EMAIL".data), 30, 45, ("bob@example.com".data)⟩]
      none ("f1".data)).1.sanitized_text
      = ("Contact @@EMAIL_2@@ and @@EMAIL_1@@".data) := by decide

example :
    (sanitize_prompt_repaired idKMS emptyStore
      ("Contact alice@example.com and bob@example.com".data)
      [⟨("EMAIL".data), 8, 25, ("alice@example.com".data)⟩,
       ⟨("EMAIL".data), 30, 45, ("bob@example.com".data)⟩]
      none ("f1".data)).1.mapping
      = [(("@@EMAIL_1@@".data), ("bob@example.com".data)),
         (("@@EMAIL_2@@".data), ("alice@example.com".data))] := by decide

-- Streaming sanity checks.
example :
    restore_streaming_response idKMS
      [(("@@EMAIL_1@@".data), ("alice@example.com".data))]
      [("Hello @@EMAIL_1".data), ("@@, bye".data)]
      = [("Hello ".data), ("alice@example.com, bye".data)] := by decide

example :
    restore_streaming_response idKMS
      [(("@@EMAIL_1@@".data), ("alice@example.com".data))]
      [("Hello @@EMAIL_1@@".data)]
      = [("Hello @@EMAIL_1".data), ("@@".data)] := by decide

/-! ## Claim C2: multi-entity numbering -/

/-- **C2, counterexample.** The claim states that for
`"Contact alice@example.com and bob@example.com"` the sanitized text
contains `@@EMAIL_1@@` before `@@EMAIL_2@@` with `alice@example.com` mapped
from `@@EMAIL_1@@`. Evaluating the code that runs — the codec
`replace_with_placeholders` on the detector's spans (the pipeline wrapper
itself raises, see C3) — the spans are numbered in descending start order,
so the sanitized text is `"Contact @@EMAIL_2@@ and @@EMAIL_1@@"` and
`@@EMAIL_1@@` maps to `bob@example.com`. -/
theorem c2_numbering_counterexample :
    (replace_with_placeholders
      ("Contact alice@example.com and bob@example.com".data)
      (detect [⟨("EMAIL".data), 8, 25, ("alice@example.com".data)⟩,
               ⟨("EMAIL".data), 30, 45, ("bob@example.com".data)⟩])).1
      = ("Contact @@EMAIL_2@@ and @@EMAIL_1@@".data) ∧
    assocFind ("@@EMAIL_1@@".data)
      (replace_with_placeholders
        ("Contact alice@example.com and bob@example.com".data)
        (detect [⟨("EMAIL".data), 8, 25, ("alice@example.com".data)⟩,
                 ⟨("EMAIL".data), 30, 45, ("bob@example.com".data)⟩])).2
      = some ("bob@example.com".data) ∧
    assocFind ("@@EMAIL_2@@".data)
      (replace_with_placeholders
        ("Contact alice@example.com and bob@example.com".data)
        (detect [⟨("EMAIL".data), 8, 25, ("alice@example.com".data)⟩,
                 ⟨("EMAIL".data), 30, 45, ("bob@example.com".data)⟩])).2
      = some ("alice@example.com".data) := by decide

/-! ## Claim C3: shared label counters across a message batch -/

/-- **C3.** The claim states that `sanitize_messages` threads one shared
`label_counters` map through every per-message sanitize call so numbering
never resets. In the source, `Pipeline.sanitize_prompt` (pipeline.py line
56) passes `label_counters` as a third positional argument that the
two-parameter `replace_with_placeholders` (placeholders.py line 7) does not
accept — in Python the call raises `TypeError`, so `sanitize_messages` on
the failing input raises (first conjunct) — and the codec initializes a
fresh local counter map on every call (placeholders.py line 23). Evaluating
the minimally repaired composition at the failing input: the second
message's first EMAIL is numbered 1 again (not 2), and the combined mapping
collapses to a single colliding key, losing message 1's entry. -/
theorem c3_counters_reset_at_failing_input :
    sanitize_messages idKMS emptyStore
      [(("Contact alice@example.com".data),
        [⟨("EMAIL".data), 8, 25, ("alice@example.com".data)⟩]),
       (("Email bob@example.com".data),
        [⟨("EMAIL".data), 6, 21, ("bob@example.com".data)⟩])]
      ("sess".data) = none ∧
    (sanitize_messages_repaired idKMS emptyStore
      [(("Contact alice@example.com".data),
        [⟨("EMAIL".data), 8, 25, ("alice@example.com".data)⟩]),
       (("Email bob@example.com".data),
        [⟨("EMAIL".data), 6, 21, ("bob@example.com".data)⟩])]
      ("sess".data)).1.sanitized_messages
      = [("Contact @@EMAIL_1@@".data), ("Email @@EMAIL_1@@".data)] ∧
    (sanitize_messages_repaired idKMS emptyStore
      [(("Contact alice@example.com".data),
        [⟨("EMAIL".data), 8, 25, ("alice@example.com".data)⟩]),
       (("Email bob@example.com".data),
        [⟨("EMAIL".data), 6, 21, ("bob@example.com".data)⟩])]
      ("sess".data)).1.mapping
      = [(("@@EMAIL_1@@".data), ("bob@example.com".data))] :=
  ⟨rfl, by decide, by decide⟩

/-! ## Claim C4: streaming restoration across chunk boundaries -/

/-- **C4, counterexample.** The claim states that for every finite chunk
sequence the streaming restorer never emits a chunk containing an
unterminated placeholder fragment whose closing `@@` arrives in a later
chunk. For the single chunk `"Hello @@EMAIL_1@@"` the dangling-marker
search misreads the closing `@@` of the already complete placeholder as a
new open marker, cuts before it, and emits `"Hello @@EMAIL_1"` followed by
a separate `"@@"` chunk; the concatenated output is left unrestored. -/
theorem c4_streaming_counterexample :
    restore_streaming_response idKMS
      [(("@@EMAIL_1@@".data), ("alice@example.com".data))]
      [("Hello @@EMAIL_1@@".data)]
      = [("Hello @@EMAIL_1".data), ("@@".data)] ∧
    (("@@EMAIL_1".data) <:+: ("Hello @@EMAIL_1".data)) ∧
    (restore_streaming_response idKMS
      [(("@@EMAIL_1@@".data), ("alice@example.com".data))]
      [("Hello @@EMAIL_1@@".data)]).flatten
      ≠ ("Hello alice@example.com".data) := by decide

/-- **C4** (amended): the split-placeholder guarantee holds for the claim's
example — for input chunks `["Hello @@EMAIL_1", "@@, bye"]` with mapping
`@@EMAIL_1@@ ↦ alice@example.com`, the restorer emits
`["Hello ", "alice@example.com, bye"]`: no output chunk contains the
unterminated fragment `@@EMAIL_1`, and the concatenation of the output is
`"Hello alice@example.com, bye"`. The universal never-truncate guarantee
fails only when a buffer ends with the closing `@@` of an already complete
placeholder (optionally followed by label characters), as in the
counterexample. -/
theorem c4_streaming_split_example :
    restore_streaming_response idKMS
      [(("@@EMAIL_1@@".data), ("alice@example.com".data))]
      [("Hello @@EMAIL_1".data), ("@@, bye".data)]
      = [("Hello ".data), ("alice@example.com, bye".data)] ∧
    (∀ c ∈ restore_streaming_response idKMS
      [(("@@EMAIL_1@@".data), ("alice@example.com".data))]
      [("Hello @@EMAIL_1".data), ("@@, bye".data)],
      ¬ (("@@EMAIL_1".data) <:+: c) ∨ (("@@EMAIL_1@@".data) <:+: c)) ∧
    (restore_streaming_response idKMS
      [(("@@EMAIL_1@@".data), ("alice@example.com".data))]
      [("Hello @@EMAIL_1".data), ("@@, bye".data)]).flatten
      = ("Hello alice@example.com, bye".data) := by decide

/-! ## Claim C6: overlap resolution -/

/-- **C6, counterexample.** The claim states that whenever two candidate
spans overlap, the survivor is the one with the larger `end - start`. For
the overlapping candidates `[0,2)` and `[1,10)` the greedy pass accepts the
earlier-starting span `[0,2)` first and rejects the strictly longer
`[1,10)`. -/
theorem c6_longest_counterexample :
    detect [⟨("A".data), 0, 2, ("xy".data)⟩, ⟨("B".data), 1, 10, ("z".data)⟩]
      = [⟨("A".data), 0, 2, ("xy".data)⟩] ∧
    (0 : Nat) < 10 ∧ (1 : Nat) < 2 ∧
    spanLen ⟨("A".data), 0, 2, ("xy".data)⟩ < spanLen ⟨("B".data), 1, 10, ("z".data)⟩ := by
  decide

/-! ## Claim C9: session-scoped cleanup -/

/-- Pointwise effect of the removal loop of `clear_session_mappings`. -/
theorem storeRemove_fold_apply (l : List (List Char × Bytes)) (s : Store)
    (sid k : List Char) :
    (l.foldl (fun st kv => storeRemove st (sessionKey sid kv.1)) s) k
      = if l.any (fun kv => decide (sessionKey sid kv.1 = k)) then none else s k := by
  induction l generalizing s with
  | nil => simp
  | cons kv t ih =>
    rw [List.foldl_cons, ih]
    by_cases h : sessionKey sid kv.1 = k
    · simp [h, storeRemove]
    · have hd : decide (sessionKey sid kv.1 = k) = false := decide_eq_false h
      rw [List.any_cons, hd, Bool.false_or]
      show (if (t.any fun kv => decide (sessionKey sid kv.1 = k)) = true then none
        else (storeRemove s (sessionKey sid kv.1)) k) = _
      rw [storeRemove]
      simp [Ne.symm h]

/-- **C9.** After `clear_session_mappings(result)`, the store contains no
key `result.session_id + ":" + placeholder` for any placeholder of
`result.mapping`, while every store entry whose key is not of that form —
in particular every other session's entry — is unchanged. -/
theorem c9_clear_session_frame (store : Store) (r : SanitizedResult) :
    (∀ kv ∈ r.mapping,
      clear_session_mappings store r (sessionKey r.session_id kv.1) = none) ∧
    (∀ k, (∀ kv ∈ r.mapping, k ≠ sessionKey r.session_id kv.1) →
      clear_session_mappings store r k = store k) := by
  constructor
  · intro kv hkv
    rw [clear_session_mappings, storeRemove_fold_apply]
    have h : r.mapping.any
        (fun kv2 => decide (sessionKey r.session_id kv2.1 = sessionKey r.session_id kv.1)) = true :=
      List.any_eq_true.mpr ⟨kv, hkv, by simp⟩
    rw [h]
    rfl
  · intro k hk
    rw [clear_session_mappings, storeRemove_fold_apply]
    have h : r.mapping.any (fun kv2 => decide (sessionKey r.session_id kv2.1 = k)) = false := by
      rw [List.any_eq_false]
      intro kv hkv
      simpa using (hk kv hkv).symm
    rw [h]
    rfl

/-- **C9, witness.** A store holding one entry of session `s1` and one
entry of session `s2`: clearing the `s1` result removes the `s1` entry and
leaves the `s2` entry untouched. -/
theorem c9_clear_session_frame_witness :
    clear_session_mappings
        (storeSet (storeSet emptyStore ("s1:@@EMAIL_1@@".data) ("a".data))
          ("s2:@@EMAIL_1@@".data) ("b".data))
        ⟨("x".data), [(("@@EMAIL_1@@".data), ("a".data))], ("x".data), ("s1".data), []⟩
        (sessionKey ("s1".data) ("@@EMAIL_1@@".data)) = none ∧
    clear_session_mappings
        (storeSet (storeSet emptyStore ("s1:@@EMAIL_1@@".data) ("a".data))
          ("s2:@@EMAIL_1@@".data) ("b".data))
        ⟨("x".data), [(("@@EMAIL_1@@".data), ("a".data))], ("x".data), ("s1".data), []⟩
        ("s2:@@EMAIL_1@@".data)
      = (storeSet (storeSet emptyStore ("s1:@@EMAIL_1@@".data) ("a".data))
          ("s2:@@EMAIL_1@@".data) ("b".data)) ("s2:@@EMAIL_1@@".data) :=
  ⟨(c9_clear_session_frame _ _).1 (("@@EMAIL_1@@".data), ("a".data)) (by decide),
   (c9_clear_session_frame _ _).2 ("s2:@@EMAIL_1@@".data) (by decide)⟩

/-! ## Claim C10: session id defaulting and store key shape -/

/-- Keys not written by the encryption loop keep their prior value. -/
theorem storeSet_fold_frame (l : List (List Char × Bytes)) (s : Store)
    (sid k : List Char) (h : ∀ kv ∈ l, k ≠ sessionKey sid kv.1) :
    (l.foldl (fun st kv => storeSet st (sessionKey sid kv.1) kv.2) s) k = s k := by
  induction l generalizing s with
  | nil => rfl
  | cons kv t ih =>
    rw [List.foldl_cons, ih _ (fun kv2 h2 => h kv2 (List.mem_cons_of_mem _ h2))]
    simp [storeSet, h kv (List.mem_cons_self _ _)]

/-- The written keys of the repaired encryption loop all carry the
`session_id:` prefix: keys without it keep their prior store value. -/
theorem sanitize_repaired_key_frame (kms : KMS) (store : Store)
    (prompt : List Char) (cands : List EntitySpan) (s fresh : List Char)
    (hs : s ≠ []) (k : List Char)
    (hk : (sanitize_prompt_repaired kms store prompt cands (some s) fresh).2 k
      ≠ store k) :
    (s ++ [':']) <+: k := by
  by_contra hpre
  apply hk
  show (((replace_with_placeholders prompt (detect cands)).2.map
      (fun kv => (kv.1, kms.encrypt kv.2))).foldl
        (fun st kv => storeSet st (sessionKey (if s = [] then fresh else s) kv.1) kv.2)
        store) k = store k
  apply storeSet_fold_frame
  intro kv _
  intro hkey
  apply hpre
  rw [hkey, if_neg hs, sessionKey]
  exact ⟨kv.1, by simp⟩

/-- **C10.** The claim describes the session-id defaulting and store-key
shape of `pipeline.py` lines 58-66, but that code is unreachable: line 56
raises `TypeError` on every call, so `sanitize_prompt` never returns a
result whose session id could be observed (first three conjuncts, at the
failing input for `session_id` `None`, `""` and `"ab"`). The remaining
conjuncts evaluate the minimally repaired composition there, recording what
the unreachable lines would compute: `None` and `""` both fall back to the
fresh uuid hex value, a non-empty id `ab` is kept, the store gains the key
`ab:@@EMAIL_1@@`, and no bare-placeholder key is written. -/
theorem c10_session_defaulting :
    sanitize_prompt idKMS emptyStore ("Email bob@example.com".data)
      [⟨("EMAIL".data), 6, 21, ("bob@example.com".data)⟩] none ("f1".data)
      = none ∧
    sanitize_prompt idKMS emptyStore ("Email bob@example.com".data)
      [⟨("EMAIL".data), 6, 21, ("bob@example.com".data)⟩] (some []) ("f1".data)
      = none ∧
    sanitize_prompt idKMS emptyStore ("Email bob@example.com".data)
      [⟨("EMAIL".data), 6, 21, ("bob@example.com".data)⟩] (some ("ab".data)) ("f1".data)
      = none ∧
    (sanitize_prompt_repaired idKMS emptyStore ("Email bob@example.com".data)
      [⟨("EMAIL".data), 6, 21, ("bob@example.com".data)⟩] none ("f1".data)).1.session_id
      = ("f1".data) ∧
    (sanitize_prompt_repaired idKMS emptyStore ("Email bob@example.com".data)
      [⟨("EMAIL".data), 6, 21, ("bob@example.com".data)⟩] (some []) ("f1".data)).1.session_id
      = ("f1".data) ∧
    (sanitize_prompt_repaired idKMS emptyStore ("Email bob@example.com".data)
      [⟨("EMAIL".data), 6, 21, ("bob@example.com".data)⟩]
      (some ("ab".data)) ("f1".data)).1.session_id = ("ab".data) ∧
    (sanitize_prompt_repaired idKMS emptyStore ("Email bob@example.com".data)
      [⟨("EMAIL".data), 6, 21, ("bob@example.com".data)⟩]
      (some ("ab".data)) ("f1".data)).2 ("ab:@@EMAIL_1@@".data)
      = some ("bob@example.com".data) ∧
    (sanitize_prompt_repaired idKMS emptyStore ("Email bob@example.com".data)
      [⟨("EMAIL".data), 6, 21, ("bob@example.com".data)⟩]
      (some ("ab".data)) ("f1".data)).2 ("@@EMAIL_1@@".data) = none :=
  ⟨rfl, rfl, rfl, by decide, by decide, by decide, by decide, by decide⟩

/-! ## Claim C8: decryption failure fallback -/

/-- Replacing a token by itself is the identity. -/
theorem replaceFirst_self (s old : List Char) : replaceFirst s old old = s := by
  induction s with
  | nil => cases old <;> rfl
  | cons c cs ih =>
    rw [replaceFirst]
    by_cases h : old.isPrefixOf (c :: cs)
    · obtain ⟨t, ht⟩ := List.isPrefixOf_iff_prefix.mp h
      rw [if_pos h]
      conv_rhs => rw [← ht]
      rw [← ht, List.drop_left]
    · rw [if_neg h]
      show c :: replaceFirst cs old old = c :: cs
      rw [ih]

/-- `assocFind` misses keys absent from the list. -/
theorem assocFind_eq_none {α : Type} (m : List (List Char × α)) (t : List Char)
    (h : t ∉ m.map Prod.fst) : assocFind t m = none := by
  induction m with
  | nil => rfl
  | cons kv rest ih =>
    rw [List.map_cons] at h
    rw [assocFind, if_neg (fun he => h (List.mem_cons.mpr (Or.inl he.symm)))]
    exact ih (fun hm => h (List.mem_cons_of_mem _ hm))

theorem decryptMapping_cons (kms : KMS) (kv : List Char × Bytes)
    (rest : List (List Char × Bytes)) :
    decryptMapping kms (kv :: rest)
      = (kv.1, match kms.decrypt kv.2 with | some v => v | none => kv.1)
          :: decryptMapping kms rest := rfl

theorem decryptOk_cons_some (kms : KMS) (kv : List Char × Bytes)
    (rest : List (List Char × Bytes)) (v : Bytes) (h : kms.decrypt kv.2 = some v) :
    decryptOk kms (kv :: rest) = (kv.1, v) :: decryptOk kms rest := by
  simp [decryptOk, List.filterMap_cons, h]

theorem decryptOk_cons_none (kms : KMS) (kv : List Char × Bytes)
    (rest : List (List Char × Bytes)) (h : kms.decrypt kv.2 = none) :
    decryptOk kms (kv :: rest) = decryptOk kms rest := by
  simp [decryptOk, List.filterMap_cons, h]

/-- No key outside the original mapping appears in its decrypted part. -/
theorem assocFind_decryptOk_eq_none (kms : KMS) (m : List (List Char × Bytes))
    (t : List Char) (h : t ∉ m.map Prod.fst) :
    assocFind t (decryptOk kms m) = none := by
  induction m with
  | nil => rfl
  | cons kv rest ih =>
    rw [List.map_cons] at h
    have h1 : ¬ kv.1 = t := fun he => h (List.mem_cons.mpr (Or.inl he.symm))
    have h2 := ih (fun hm => h (List.mem_cons_of_mem _ hm))
    cases hdec : kms.decrypt kv.2 with
    | some v => rw [decryptOk_cons_some kms kv rest v hdec, assocFind, if_neg h1]; exact h2
    | none => rw [decryptOk_cons_none kms kv rest hdec]; exact h2

/-- One restoration step behaves the same on the full decrypted mapping
(failed entries mapped to their own token) and on its successfully
decrypted part: a failed entry's replacement is the identity. -/
theorem decrypt_step_agree (kms : KMS) (m : List (List Char × Bytes))
    (hnd : (m.map Prod.fst).Nodup) (result t : List Char) :
    (match assocFind t (decryptMapping kms m) with
     | some v => replaceFirst result t v
     | none => result)
    = (match assocFind t (decryptOk kms m) with
       | some v => replaceFirst result t v
       | none => result) := by
  induction m generalizing result with
  | nil => rfl
  | cons kv rest ih =>
    rw [List.map_cons, List.nodup_cons] at hnd
    by_cases hk : kv.1 = t
    · cases hdec : kms.decrypt kv.2 with
      | some v =>
        rw [decryptMapping_cons, decryptOk_cons_some kms kv rest v hdec]
        simp only [hdec]
        rw [assocFind, assocFind, if_pos hk, if_pos hk]
      | none =>
        rw [decryptMapping_cons, decryptOk_cons_none kms kv rest hdec]
        simp only [hdec]
        rw [assocFind, if_pos hk,
          assocFind_decryptOk_eq_none kms rest t (hk ▸ hnd.1), ← hk]
        exact replaceFirst_self result kv.1
    · cases hdec : kms.decrypt kv.2 with
      | some v =>
        rw [decryptMapping_cons, decryptOk_cons_some kms kv rest v hdec]
        simp only [hdec]
        rw [assocFind, assocFind, if_neg hk, if_neg hk]
        exact ih hnd.2 result
      | none =>
        rw [decryptMapping_cons, decryptOk_cons_none kms kv rest hdec]
        simp only [hdec]
        rw [assocFind, if_neg hk]
        exact ih hnd.2 result

/-- Folding pointwise-equal restoration steps gives equal results. -/
theorem foldl_restore_congr (m1 m2 : List (List Char × List Char))
    (h : ∀ (result t : List Char),
      (match assocFind t m1 with
       | some v => replaceFirst result t v | none => result)
      = (match assocFind t m2 with
         | some v => replaceFirst result t v | none => result)) :
    ∀ (toks : List (List Char)) (a : List Char),
      toks.foldl (fun result ph => match assocFind ph m1 with
        | some v => replaceFirst result ph v | none => result) a
      = toks.foldl (fun result ph => match assocFind ph m2 with
        | some v => replaceFirst result ph v | none => result) a := by
  intro toks
  induction toks with
  | nil => intro a; rfl
  | cons t ts ih =>
    intro a
    rw [List.foldl_cons, List.foldl_cons, h a t]
    exact ih _

/-- A failed entry of the mapping decrypts to its own placeholder token. -/
theorem assocFind_decryptMapping_failed (kms : KMS) (m : List (List Char × Bytes))
    (hnd : (m.map Prod.fst).Nodup) :
    ∀ kv ∈ m, kms.decrypt kv.2 = none →
      assocFind kv.1 (decryptMapping kms m) = some kv.1 := by
  induction m with
  | nil => intro kv h; cases h
  | cons kv0 rest ih =>
    rw [List.map_cons, List.nodup_cons] at hnd
    intro kv hkv hdec
    rcases List.mem_cons.mp hkv with he | hm
    · subst he
      rw [decryptMapping_cons, assocFind, if_pos rfl, hdec]
    · have hk0 : ¬ kv0.1 = kv.1 := by
        intro he
        exact hnd.1 (he ▸ (List.mem_map_of_mem Prod.fst hm))
      rw [decryptMapping_cons, assocFind, if_neg hk0]
      exact ih hnd.2 kv hm hdec

/-- **C8.** `restore_response` never raises: each mapping entry whose
decryption fails falls back to the placeholder token itself (so its
restoration step is the identity and that placeholder stays literal), every
other entry is decrypted and restored normally, and the whole operation
totally computes a string — equivalently, restoring with the full decrypted
mapping equals restoring with just its successfully decrypted part. -/
theorem c8_decrypt_failure_fallback (kms : KMS) (text : List Char)
    (r : SanitizedResult) (hnd : (r.mapping.map Prod.fst).Nodup) :
    restore_response kms text r
      = restore_from_placeholders text (decryptOk kms r.mapping) ∧
    ∀ kv ∈ r.mapping, kms.decrypt kv.2 = none →
      assocFind kv.1 (decryptMapping kms r.mapping) = some kv.1 := by
  constructor
  · rw [restore_response, restore_from_placeholders, restore_from_placeholders]
    exact foldl_restore_congr _ _
      (fun result t => decrypt_step_agree kms r.mapping hnd result t) _ _
  · exact assocFind_decryptMapping_failed kms r.mapping hnd

/-- **C8, witness.** A mapping whose PHONE entry fails to decrypt while the
EMAIL entry decrypts: restoration equals restoration with the EMAIL entry
alone (the PHONE placeholder stays literal), and the failed entry decodes
to its own token. -/
theorem c8_decrypt_failure_fallback_witness :
    (([(("@@EMAIL_1@@".data), ("alice@example.com".data)),
       (("@@PHONE_1@@".data), ("!".data))].map Prod.fst).Nodup) ∧
    (restore_response
        ⟨fun b => b, fun b => if b = ("!".data) then none else some b⟩
        ("A @@EMAIL_1@@ B @@PHONE_1@@".data)
        ⟨("t".data),
         [(("@@EMAIL_1@@".data), ("alice@example.com".data)),
          (("@@PHONE_1@@".data), ("!".data))], ("o".data), ("s".data), []⟩
      = restore_from_placeholders ("A @@EMAIL_1@@ B @@PHONE_1@@".data)
          (decryptOk ⟨fun b => b, fun b => if b = ("!".data) then none else some b⟩
            [(("@@EMAIL_1@@".data), ("alice@example.com".data)),
             (("@@PHONE_1@@".data), ("!".data))]) ∧
    ∀ kv ∈ [(("@@EMAIL_1@@".data), ("alice@example.com".data)),
            (("@@PHONE_1@@".data), ("!".data))],
      (⟨fun b => b, fun b => if b = ("!".data) then none else some b⟩ : KMS).decrypt kv.2 = none →
      assocFind kv.1 (decryptMapping
        ⟨fun b => b, fun b => if b = ("!".data) then none else some b⟩
        [(("@@EMAIL_1@@".data), ("alice@example.com".data)),
         (("@@PHONE_1@@".data), ("!".data))]) = some kv.1) :=
  ⟨by decide,
   c8_decrypt_failure_fallback
     ⟨fun b => b, fun b => if b = ("!".data) then none else some b⟩
     ("A @@EMAIL_1@@ B @@PHONE_1@@".data)
     ⟨("t".data),
      [(("@@EMAIL_1@@".data), ("alice@example.com".data)),
       (("@@PHONE_1@@".data), ("!".data))], ("o".data), ("s".data), []⟩
     (by decide)⟩

/-! ## Claim C5: session isolation -/

/-- **C5.** The claim's scenario — two independent sanitize calls returning
results with the colliding placeholder `@@EMAIL_1@@` under different
session ids — can never arise in the source: both sanitize calls raise
`TypeError` at `pipeline.py` line 56 (first two conjuncts), so no
`SanitizedResult` is ever produced by `sanitize_prompt`. The remaining
conjuncts evaluate the scenario over the minimally repaired composition
(sessions `sessionA`/`sessionB`, one store shared sequentially): both
results carry the colliding key `@@EMAIL_1@@`, and `restore_response` —
which does run, and reads only the passed result's own mapping, never the
store — restores each response to its own session's value. -/
theorem c5_session_isolation :
    sanitize_prompt idKMS emptyStore ("Send to alice@example.com".data)
      [aliceSpan] (some ("sessionA".data)) ("sessionA".data) = none ∧
    sanitize_prompt idKMS emptyStore ("Contact bob@example.com".data)
      [bobSpan] (some ("sessionB".data)) ("sessionB".data) = none ∧
    ((c5call1 idKMS emptyStore).1.mapping.map Prod.fst = [("@@EMAIL_1@@".data)]) ∧
    ((c5call2 idKMS emptyStore).1.mapping.map Prod.fst = [("@@EMAIL_1@@".data)]) ∧
    restore_response idKMS ("Send to @@EMAIL_1@@".data) (c5call1 idKMS emptyStore).1
      = ("Send to alice@example.com".data) ∧
    restore_response idKMS ("Contact @@EMAIL_1@@".data) (c5call2 idKMS emptyStore).1
      = ("Contact bob@example.com".data) :=
  ⟨rfl, rfl, by decide, by decide, by decide, by decide⟩

/-! ## Claim C6: detector output structure -/

/-- `sortInsert` is Mathlib's `orderedInsert` for the Boolean preorder. -/
theorem sortInsert_eq_orderedInsert (le : EntitySpan → EntitySpan → Bool)
    (a : EntitySpan) (l : List EntitySpan) :
    sortInsert le a l = List.orderedInsert (fun x y => le x y = true) a l := by
  induction l with
  | nil => rfl
  | cons b rest ih =>
    rw [sortInsert, List.orderedInsert]
    by_cases h : le a b = true
    · rw [if_pos h, if_pos h]
    · rw [if_neg h, if_neg h, ih]

/-- `stableSortBy` is Mathlib's insertion sort for the Boolean preorder. -/
theorem stableSortBy_eq_insertionSort (le : EntitySpan → EntitySpan → Bool)
    (l : List EntitySpan) :
    stableSortBy le l = List.insertionSort (fun x y => le x y = true) l := by
  induction l with
  | nil => rfl
  | cons a rest ih =>
    show sortInsert le a (stableSortBy le rest) = _
    rw [ih, sortInsert_eq_orderedInsert]
    rfl

theorem stableSortBy_perm (le : EntitySpan → EntitySpan → Bool)
    (l : List EntitySpan) : List.Perm (stableSortBy le l) l := by
  rw [stableSortBy_eq_insertionSort]
  exact List.perm_insertionSort _ _

/-- Everything the greedy pass accepts starts at or after the bound. -/
theorem greedyAccept_mem_le (l : List EntitySpan)
    (hwf : ∀ e ∈ l, e.start < e.stop) :
    ∀ (L : Int), ∀ x ∈ greedyAccept L l, L ≤ (x.start : Int) := by
  induction l with
  | nil => intro L x hx; cases hx
  | cons e rest ih =>
    intro L x hx
    have hwfr : ∀ e ∈ rest, e.start < e.stop :=
      fun f hf => hwf f (List.mem_cons_of_mem _ hf)
    rw [greedyAccept] at hx
    by_cases h : L ≤ (e.start : Int)
    · rw [if_pos h] at hx
      rcases List.mem_cons.mp hx with he | hm
      · subst he; exact h
      · have h2 := ih hwfr (e.stop : Int) x hm
        have h3 : (e.start : Int) < (e.stop : Int) :=
          Int.ofNat_lt.mpr (hwf e (List.mem_cons_self _ _))
        exact le_trans h (le_trans (le_of_lt h3) h2)
    · rw [if_neg h] at hx
      exact ih hwfr L x hx

/-- The greedy pass produces a chain: every accepted span ends at or before
the start of every later accepted span. -/
theorem greedyAccept_pairwise (l : List EntitySpan)
    (hwf : ∀ e ∈ l, e.start < e.stop) (L : Int) :
    List.Pairwise (fun a b => a.stop ≤ b.start) (greedyAccept L l) := by
  induction l generalizing L with
  | nil => exact List.Pairwise.nil
  | cons e rest ih =>
    have hwfr : ∀ f ∈ rest, f.start < f.stop :=
      fun f hf => hwf f (List.mem_cons_of_mem _ hf)
    rw [greedyAccept]
    by_cases h : L ≤ (e.start : Int)
    · rw [if_pos h]
      refine List.Pairwise.cons ?_ (ih hwfr _)
      intro x hx
      exact Int.ofNat_le.mp (greedyAccept_mem_le rest hwfr (e.stop : Int) x hx)
    · rw [if_neg h]
      exact ih hwfr L

theorem greedyAccept_subset (l : List EntitySpan) (L : Int) :
    ∀ x ∈ greedyAccept L l, x ∈ l := by
  induction l generalizing L with
  | nil => intro x hx; cases hx
  | cons e rest ih =>
    intro x hx
    rw [greedyAccept] at hx
    by_cases h : L ≤ (e.start : Int)
    · rw [if_pos h] at hx
      rcases List.mem_cons.mp hx with he | hm
      · exact he ▸ List.mem_cons_self _ _
      · exact List.mem_cons_of_mem _ (ih _ x hm)
    · rw [if_neg h] at hx
      exact List.mem_cons_of_mem _ (ih _ x hx)

theorem remove_overlapping_pairwise (cands : List EntitySpan)
    (hwf : ∀ e ∈ cands, e.start < e.stop) :
    List.Pairwise (fun a b => a.stop ≤ b.start) (remove_overlapping cands) := by
  rw [remove_overlapping]
  by_cases h : cands.isEmpty
  · rw [if_pos h]; exact List.Pairwise.nil
  · rw [if_neg h]
    refine greedyAccept_pairwise _ ?_ _
    intro e he
    exact hwf e ((stableSortBy_perm overlapLe cands).mem_iff.mp he)

theorem remove_overlapping_subset (cands : List EntitySpan) :
    ∀ x ∈ remove_overlapping cands, x ∈ cands := by
  rw [remove_overlapping]
  by_cases h : cands.isEmpty
  · rw [if_pos h]; intro x hx; cases hx
  · rw [if_neg h]
    intro x hx
    exact (stableSortBy_perm overlapLe cands).mem_iff.mp
      (greedyAccept_subset _ _ x hx)

theorem detect_perm_remove_overlapping (cands : List EntitySpan) :
    List.Perm (detect cands) (remove_overlapping cands) := by
  rw [detect, stableSortBy_eq_insertionSort]
  exact List.perm_insertionSort _ _

theorem detect_sorted (cands : List EntitySpan) :
    List.Pairwise (fun a b => a.start ≤ b.start) (detect cands) := by
  rw [detect, stableSortBy_eq_insertionSort]
  haveI : IsTotal EntitySpan (fun x y => ascStartLe x y = true) :=
    ⟨fun a b => by
      rcases Nat.le_total a.start b.start with h | h
      · exact Or.inl (by simpa [ascStartLe] using h)
      · exact Or.inr (by simpa [ascStartLe] using h)⟩
  haveI : IsTrans EntitySpan (fun x y => ascStartLe x y = true) :=
    ⟨fun a b c hab hbc => by
      simp only [ascStartLe, decide_eq_true_eq] at *
      exact le_trans hab hbc⟩
  have h := List.sorted_insertionSort (fun x y => ascStartLe x y = true)
    (remove_overlapping cands)
  exact h.imp (fun hx => by simpa [ascStartLe] using hx)

/-- **C6** (amended): for every candidate list of well-formed spans
(`start < end`), `detect` returns spans sorted ascending by start with no
two spans overlapping (each span ends at or before the next one starts);
between two overlapping candidates the earlier-starting one survives
regardless of length, and the larger `end - start` wins only among
same-start overlapping candidates. -/
theorem c6_detect_overlap_policy :
    (∀ cands : List EntitySpan, (∀ e ∈ cands, e.start < e.stop) →
      List.Pairwise (fun a b => a.stop ≤ b.start) (detect cands)) ∧
    (∀ a b : EntitySpan, a.start < b.start → b.start < a.stop →
      detect [a, b] = [a]) ∧
    (∀ a b : EntitySpan, a.start = b.start → a.start < a.stop →
      spanLen b ≤ spanLen a → detect [a, b] = [a]) := by
  refine ⟨?_, ?_, ?_⟩
  · intro cands hwf
    have hsor := detect_sorted cands
    have hchain := remove_overlapping_pairwise cands hwf
    have hsym : List.Pairwise
        (fun a b => a.stop ≤ b.start ∨ b.stop ≤ a.start)
        (remove_overlapping cands) := hchain.imp (fun h => Or.inl h)
    have hperm := detect_perm_remove_overlapping cands
    have hnov : List.Pairwise
        (fun a b => a.stop ≤ b.start ∨ b.stop ≤ a.start) (detect cands) :=
      (List.Perm.pairwise_iff
        (fun {a b} h => h.symm.imp (fun x => x) (fun x => x)) hperm).mpr hsym
    have hand := hsor.and hnov
    refine hand.imp_of_mem ?_
    intro a b ha hb hab
    rcases hab.2 with h | h
    · exact h
    · have hbwf : b.start < b.stop :=
        hwf b (remove_overlapping_subset cands b (hperm.mem_iff.mp hb))
      omega
  · intro a b h1 h2
    have hs : stableSortBy overlapLe [a, b] = [a, b] := by
      show sortInsert overlapLe a (sortInsert overlapLe b []) = _
      rw [sortInsert, sortInsert, if_pos]
      rw [overlapLe, Bool.or_eq_true]
      exact Or.inl (decide_eq_true h1)
    rw [detect, remove_overlapping, if_neg (by simp), hs, greedyAccept,
      if_pos (le_trans (by norm_num) (Int.ofNat_nonneg a.start)), greedyAccept,
      if_neg (not_le.mpr (Int.ofNat_lt.mpr h2)), greedyAccept]
    rfl
  · intro a b h1 h2 h3
    have hs : stableSortBy overlapLe [a, b] = [a, b] := by
      show sortInsert overlapLe a (sortInsert overlapLe b []) = _
      rw [sortInsert, sortInsert, if_pos]
      rw [overlapLe, Bool.or_eq_true, Bool.and_eq_true]
      exact Or.inr ⟨decide_eq_true h1, decide_eq_true h3⟩
    rw [detect, remove_overlapping, if_neg (by simp), hs, greedyAccept,
      if_pos (le_trans (by norm_num) (Int.ofNat_nonneg a.start)), greedyAccept,
      if_neg (not_le.mpr (Int.ofNat_lt.mpr (h1 ▸ h2))), greedyAccept]
    rfl

/-- **C6, witness.** The structural theorem applied to a concrete candidate
list with an overlap (the two-span clauses applied at spans `[0,4)` and
`[1,3)`, and at same-start spans `[2,6)` and `[2,5)`). -/
theorem c6_detect_overlap_policy_witness :
    List.Pairwise (fun a b => a.stop ≤ b.start)
      (detect [⟨("A".data), 0, 4, ("ab".data)⟩, ⟨("B".data), 1, 3, ("c".data)⟩,
               ⟨("C".data), 5, 7, ("d".data)⟩]) ∧
    detect [⟨("A".data), 0, 4, ("ab".data)⟩, ⟨("B".data), 1, 3, ("c".data)⟩]
      = [⟨("A".data), 0, 4, ("ab".data)⟩] ∧
    detect [⟨("C".data), 2, 6, ("e".data)⟩, ⟨("D".data), 2, 5, ("f".data)⟩]
      = [⟨("C".data), 2, 6, ("e".data)⟩] :=
  ⟨c6_detect_overlap_policy.1
      [⟨("A".data), 0, 4, ("ab".data)⟩, ⟨("B".data), 1, 3, ("c".data)⟩,
       ⟨("C".data), 5, 7, ("d".data)⟩] (by decide),
   c6_detect_overlap_policy.2.1 ⟨("A".data), 0, 4, ("ab".data)⟩
      ⟨("B".data), 1, 3, ("c".data)⟩ (by decide) (by decide),
   c6_detect_overlap_policy.2.2 ⟨("C".data), 2, 6, ("e".data)⟩
      ⟨("D".data), 2, 5, ("f".data)⟩ (by decide) (by decide) (by decide)⟩

/-! ## Texts without adjacent `@@`: closure lemmas -/

theorem noDoubleB_cons (a : Char) (l : List Char) (h : noDoubleB (a :: l) = true) :
    noDoubleB l = true := by
  cases l with
  | nil => rfl
  | cons b t => rw [noDoubleB, Bool.and_eq_true] at h; exact h.2

theorem noDoubleB_of_append_left (x y : List Char)
    (h : noDoubleB (x ++ y) = true) : noDoubleB x = true := by
  induction x with
  | nil => rfl
  | cons a t ih =>
    cases t with
    | nil => rfl
    | cons b t2 =>
      rw [List.cons_append, List.cons_append, noDoubleB, Bool.and_eq_true] at h
      rw [noDoubleB, Bool.and_eq_true]
      exact ⟨h.1, ih (by rw [List.cons_append]; exact h.2)⟩

theorem noDoubleB_of_append_right (x y : List Char)
    (h : noDoubleB (x ++ y) = true) : noDoubleB y = true := by
  induction x with
  | nil => exact h
  | cons a t ih => exact ih (noDoubleB_cons _ _ (by rwa [List.cons_append] at h))

theorem noDoubleB_infix (x y : List Char) (h : x <:+: y)
    (hy : noDoubleB y = true) : noDoubleB x = true := by
  obtain ⟨s, t, rfl⟩ := h
  exact noDoubleB_of_append_left _ _
    (noDoubleB_of_append_right s _ (by rwa [← List.append_assoc]))

/-! ## Scanner lemmas -/

theorem scanGo_cons (st : ScanState) (c : Char) (cs : List Char) :
    scanGo st (c :: cs)
      = (match scanStep st c with
         | (st', some tok) => tok :: scanGo st' cs
         | (st', none) => scanGo st' cs) := rfl

theorem scanGo_step_none (st : ScanState) (c : Char) (cs : List Char)
    (st' : ScanState) (h : scanStep st c = (st', none)) :
    scanGo st (c :: cs) = scanGo st' cs := by
  rw [scanGo_cons, h]

theorem scanGo_step_some (st : ScanState) (c : Char) (cs : List Char)
    (st' : ScanState) (tok : List Char) (h : scanStep st c = (st', some tok)) :
    scanGo st (c :: cs) = tok :: scanGo st' cs := by
  rw [scanGo_cons, h]

theorem scanStep_s0_at : scanStep .s0 '@' = (.s1, none) := rfl

theorem scanStep_s0_other (c : Char) (h : ¬ c = '@') :
    scanStep .s0 c = (.s0, none) := by
  rw [scanStep, if_neg h]

theorem scanStep_s1_at : scanStep .s1 '@' = (.s2 [], none) := rfl

theorem scanStep_s1_other (c : Char) (h : ¬ c = '@') :
    scanStep .s1 c = (.s0, none) := by
  rw [scanStep, if_neg h]

theorem scanStep_s2_class (run : List Char) (c : Char) (h : isClassChar c = true) :
    scanStep (.s2 run) c = (.s2 (run ++ [c]), none) := by
  rw [scanStep, if_pos h]

theorem scanStep_s2_at_empty : scanStep (.s2 []) '@' = (.s2 [], none) := rfl

theorem scanStep_s2_at_nonempty (run : List Char) (h : run ≠ []) :
    scanStep (.s2 run) '@' = (.s3 run, none) := by
  have h1 : isClassChar '@' = false := by decide
  have h2 : run.isEmpty = false := by
    cases run with
    | nil => exact absurd rfl h
    | cons _ _ => rfl
  rw [scanStep, h1]
  simp [h2]

theorem scanStep_s3_at (run : List Char) :
    scanStep (.s3 run) '@' = (.s0, some ('@' :: '@' :: run ++ ['@', '@'])) := rfl

/-- Inside an open marker, scanning the class run and the closing `@@`
emits the full token and resets the scanner. -/
theorem scanGo_run (run : List Char) (hrun : run.all isClassChar = true) :
    ∀ (acc : List Char), acc ++ run ≠ [] → ∀ (rest : List Char),
      scanGo (.s2 acc) (run ++ '@' :: '@' :: rest)
        = ('@' :: '@' :: (acc ++ run) ++ ['@', '@']) :: scanGo .s0 rest := by
  induction run with
  | nil =>
    intro acc hne rest
    have hacc : acc ≠ [] := by simpa using hne
    rw [List.nil_append,
      scanGo_step_none _ _ _ _ (scanStep_s2_at_nonempty acc hacc),
      scanGo_step_some _ _ _ _ _ (scanStep_s3_at acc), List.append_nil]
  | cons c t ih =>
    intro acc hne rest
    rw [List.all_cons, Bool.and_eq_true] at hrun
    rw [List.cons_append,
      scanGo_step_none _ _ _ _ (scanStep_s2_class acc c hrun.1),
      ih hrun.2 (acc ++ [c]) (by simp) rest]
    simp [List.append_assoc]

/-- From `s0` or `s1`, a well-formed token is emitted whole and the scanner
resumes in `s0` after it. -/
theorem scanGo_token (run : List Char) (hrun : run.all isClassChar = true)
    (hne : run ≠ []) (rest : List Char) (st : ScanState)
    (hst : st = .s0 ∨ st = .s1) :
    scanGo st (('@' :: '@' :: run ++ ['@', '@']) ++ rest)
      = ('@' :: '@' :: run ++ ['@', '@']) :: scanGo .s0 rest := by
  have hshape : ('@' :: '@' :: run ++ ['@', '@']) ++ rest
      = '@' :: '@' :: (run ++ '@' :: '@' :: rest) := by
    simp
  rcases hst with h | h <;> subst h
  · rw [hshape, scanGo_step_none _ _ _ _ scanStep_s0_at,
      scanGo_step_none _ _ _ _ scanStep_s1_at,
      scanGo_run run hrun [] (by simpa using hne) rest, List.nil_append]
  · rw [hshape, scanGo_step_none _ _ _ _ scanStep_s1_at,
      scanGo_step_none _ _ _ _ scanStep_s2_at_empty,
      scanGo_run run hrun [] (by simpa using hne) rest, List.nil_append]

/-- Scanning an `@@`-free stretch stays in `s0`/`s1` and emits nothing. -/
theorem scanGo_gap (g : List Char) :
    ∀ (st : ScanState) (k : List Char),
      ((st = .s0 ∧ noDoubleB g = true) ∨ (st = .s1 ∧ noDoubleB ('@' :: g) = true)) →
      scanGo st (g ++ k) = scanGo .s0 k ∨ scanGo st (g ++ k) = scanGo .s1 k := by
  induction g with
  | nil =>
    intro st k h
    rcases h with ⟨rfl, _⟩ | ⟨rfl, _⟩
    · exact Or.inl rfl
    · exact Or.inr rfl
  | cons c g2 ih =>
    intro st k h
    rw [List.cons_append]
    rcases h with ⟨rfl, hg⟩ | ⟨rfl, hg⟩
    · by_cases hc : c = '@'
      · subst hc
        rw [scanGo_step_none _ _ _ _ scanStep_s0_at]
        exact ih .s1 k (Or.inr ⟨rfl, hg⟩)
      · rw [scanGo_step_none _ _ _ _ (scanStep_s0_other c hc)]
        exact ih .s0 k (Or.inl ⟨rfl, noDoubleB_cons _ _ hg⟩)
    · rw [noDoubleB, Bool.and_eq_true] at hg
      have hc : ¬ c = '@' := by
        intro hcc
        subst hcc
        simp at hg
      rw [scanGo_step_none _ _ _ _ (scanStep_s1_other c hc)]
      exact ih .s0 k (Or.inl ⟨rfl, noDoubleB_cons _ _ hg.2⟩)

/-- The maximal class run of a run followed by the closing marker. -/
theorem takeWhile_class_run (run : List Char) (hclass : run.all isClassChar = true) :
    (run ++ ['@', '@']).takeWhile isClassChar = run := by
  induction run with
  | nil => rfl
  | cons c t ih =>
    rw [List.all_cons, Bool.and_eq_true] at hclass
    rw [List.cons_append, List.takeWhile_cons, if_pos hclass.1, ih hclass.2]

/-- The token characterization behind `isFullPlaceholder`. -/
theorem isFullPlaceholder_iff (g : List Char) :
    isFullPlaceholder g = true
      ↔ ∃ run, run ≠ [] ∧ run.all isClassChar = true
          ∧ g = '@' :: '@' :: run ++ ['@', '@'] := by
  constructor
  · intro h
    unfold isFullPlaceholder at h
    split at h
    case h_2 => exact absurd h (by simp)
    case h_1 c2 rest =>
      simp only [Bool.and_eq_true, Bool.not_eq_true', decide_eq_true_eq] at h
      have hnetw : rest.takeWhile isClassChar ≠ [] := by
        intro hx
        rw [hx] at h
        exact absurd h.1 (by simp)
      refine ⟨rest.takeWhile isClassChar, hnetw, ?_, ?_⟩
      · exact List.all_eq_true.mpr (fun c hc => List.mem_takeWhile_imp hc)
      · have hpre : rest.takeWhile isClassChar
            = rest.take (rest.takeWhile isClassChar).length := by
          have hp := List.takeWhile_prefix (p := isClassChar) (l := rest)
          exact List.prefix_iff_eq_take.mp hp
        have hrest : rest = rest.takeWhile isClassChar ++ ['@', '@'] := by
          conv_lhs => rw [← List.take_append_drop (rest.takeWhile isClassChar).length rest]
          rw [← hpre, h.2]
        exact congrArg (fun l => '@' :: '@' :: l) hrest
  · rintro ⟨run, hne, hclass, rfl⟩
    have h1 : isFullPlaceholder ('@' :: '@' :: run ++ ['@', '@'])
        = (!((run ++ ['@', '@']).takeWhile isClassChar).isEmpty
            && decide ((run ++ ['@', '@']).drop
                ((run ++ ['@', '@']).takeWhile isClassChar).length = ['@', '@'])) := rfl
    have h2 : run.isEmpty = false := by
      cases run with
      | nil => exact absurd rfl hne
      | cons _ _ => rfl
    rw [h1, takeWhile_class_run run hclass, h2, List.drop_left run ['@', '@']]
    simp

/-- Scanning a gap/token interleaving finds exactly the tokens, in order. -/
theorem scanTokens_segJoin (segs : List (List Char × List Char)) :
    ∀ (g0 : List Char), noDoubleB g0 = true →
      (∀ sg ∈ segs, isFullPlaceholder sg.1 = true ∧ noDoubleB sg.2 = true) →
      scanTokens (segJoin g0 segs) = segs.map Prod.fst := by
  induction segs with
  | nil =>
    intro g0 hg0 _
    show scanGo .s0 (g0 ++ [].flatten) = []
    rcases scanGo_gap g0 .s0 [].flatten (Or.inl ⟨rfl, hg0⟩) with h | h <;> rw [h] <;> rfl
  | cons sg rest ih =>
    intro g0 hg0 hsegs
    obtain ⟨run, hne, hclass, htok⟩ :=
      (isFullPlaceholder_iff sg.1).mp (hsegs sg (List.mem_cons_self _ _)).1
    have hshape : segJoin g0 (sg :: rest)
        = g0 ++ (sg.1 ++ segJoin sg.2 rest) := by
      rw [segJoin, segJoin, List.map_cons, List.flatten_cons]
      simp [List.append_assoc]
    rw [scanTokens, hshape]
    have hgap := scanGo_gap g0 .s0 (sg.1 ++ segJoin sg.2 rest) (Or.inl ⟨rfl, hg0⟩)
    have htail : ∀ st : ScanState, st = .s0 ∨ st = .s1 →
        scanGo st (sg.1 ++ segJoin sg.2 rest)
          = sg.1 :: scanGo .s0 (segJoin sg.2 rest) := by
      intro st hst
      rw [htok]
      exact scanGo_token run hclass hne (segJoin sg.2 rest) st hst
    have hrest : scanGo .s0 (segJoin sg.2 rest) = rest.map Prod.fst := by
      have := ih sg.2 (hsegs sg (List.mem_cons_self _ _)).2
        (fun x hx => hsegs x (List.mem_cons_of_mem _ hx))
      exact this
    rcases hgap with h | h <;> rw [h]
    · rw [htail .s0 (Or.inl rfl), hrest, List.map_cons]
    · rw [htail .s1 (Or.inr rfl), hrest, List.map_cons]

/-! ## Replacement lemmas -/

/-- In a text made of an `@@`-free prefix, a well-formed token and a tail,
the leftmost occurrence of the token is the one after the prefix. -/
theorem replaceFirst_token_seg (run : List Char) (hne : run ≠ [])
    (hclass : run.all isClassChar = true) (B new : List Char) :
    ∀ (A : List Char), noDoubleB A = true →
      replaceFirst (A ++ ('@' :: '@' :: run ++ ['@', '@']) ++ B)
        ('@' :: '@' :: run ++ ['@', '@']) new
      = A ++ new ++ B := by
  intro A
  induction A with
  | nil =>
    intro _
    rw [List.nil_append, replaceFirst.eq_def,
      if_pos (List.isPrefixOf_iff_prefix.mpr ⟨B, rfl⟩), List.nil_append]
    congr 1
    exact List.drop_left _ B
  | cons a A2 ih =>
    intro hA
    obtain ⟨r0, rt, rfl⟩ : ∃ r0 rt, run = r0 :: rt := by
      cases run with
      | nil => exact absurd rfl hne
      | cons r0 rt => exact ⟨r0, rt, rfl⟩
    have hr0 : isClassChar r0 = true := by
      rw [List.all_cons, Bool.and_eq_true] at hclass
      exact hclass.1
    have hnp : ¬ ('@' :: '@' :: (r0 :: rt) ++ ['@', '@']).isPrefixOf
        (a :: (A2 ++ (('@' :: '@' :: (r0 :: rt) ++ ['@', '@']) ++ B))) = true := by
      intro hp
      obtain ⟨t, ht⟩ := List.isPrefixOf_iff_prefix.mp hp
      cases A2 with
      | nil =>
        rw [List.nil_append] at ht
        simp only [List.cons_append, List.append_assoc] at ht
        injection ht with h1 ht
        injection ht with h2 ht
        injection ht with h3 ht
        rw [h3] at hr0
        exact absurd hr0 (by decide)
      | cons b A3 =>
        simp only [List.cons_append, List.append_assoc] at ht
        injection ht with h1 ht
        injection ht with h2 ht
        rw [noDoubleB, ← h1, ← h2] at hA
        simp at hA
    have hsh : (a :: A2) ++ (('@' :: '@' :: (r0 :: rt) ++ ['@', '@']) ++ B)
        = a :: (A2 ++ (('@' :: '@' :: (r0 :: rt) ++ ['@', '@']) ++ B)) := rfl
    rw [List.append_assoc, hsh, replaceFirst.eq_def, if_neg hnp]
    show a :: replaceFirst (A2 ++ (('@' :: '@' :: (r0 :: rt) ++ ['@', '@']) ++ B)) _ new
      = (a :: A2) ++ new ++ B
    rw [← List.append_assoc, ih (noDoubleB_cons _ _ hA)]
    rfl

/-- The restoration fold over a gap/token interleaving replaces each token
by its mapped value in place, provided the restored text has no adjacent
`@@`. `P` is the already-restored prefix. -/
theorem restore_fold_segs (m : List (List Char × List Char)) :
    ∀ (segs : List (List Char × List Char × List Char)) (P : List Char),
      (∀ x ∈ segs, isFullPlaceholder x.1 = true ∧ assocFind x.1 m = some x.2.1) →
      noDoubleB (P ++ ((segs.map fun x => x.2.1 ++ x.2.2).flatten)) = true →
      (segs.map Prod.fst).foldl
        (fun result ph =>
          match assocFind ph m with
          | some v => replaceFirst result ph v
          | none => result)
        (P ++ ((segs.map fun x => x.1 ++ x.2.2).flatten))
      = P ++ ((segs.map fun x => x.2.1 ++ x.2.2).flatten) := by
  intro segs
  induction segs with
  | nil => intro P _ _; rfl
  | cons x rest ih =>
    intro P hseg htarget
    obtain ⟨run, hne, hclass, htok⟩ :=
      (isFullPlaceholder_iff x.1).mp (hseg x (List.mem_cons_self _ _)).1
    have hP : noDoubleB P = true := noDoubleB_of_append_left _ _ htarget
    rw [List.map_cons, List.map_cons, List.map_cons, List.foldl_cons,
      List.flatten_cons, List.flatten_cons]
    have hinit : P ++ ((x.1 ++ x.2.2) ++ (rest.map fun y => y.1 ++ y.2.2).flatten)
        = P ++ x.1 ++ (x.2.2 ++ (rest.map fun y => y.1 ++ y.2.2).flatten) := by
      simp [List.append_assoc]
    rw [hinit, (hseg x (List.mem_cons_self _ _)).2]
    have hred : (match some x.2.1 with
        | some v => replaceFirst
            (P ++ x.1 ++ (x.2.2 ++ (rest.map fun y => y.1 ++ y.2.2).flatten)) x.1 v
        | none => P ++ x.1 ++ (x.2.2 ++ (rest.map fun y => y.1 ++ y.2.2).flatten))
        = replaceFirst
            (P ++ x.1 ++ (x.2.2 ++ (rest.map fun y => y.1 ++ y.2.2).flatten)) x.1 x.2.1 := rfl
    rw [hred, htok, replaceFirst_token_seg run hne hclass _ _ P hP]
    have hinit2 : P ++ x.2.1 ++ (x.2.2 ++ (rest.map fun y => y.1 ++ y.2.2).flatten)
        = (P ++ x.2.1 ++ x.2.2) ++ (rest.map fun y => y.1 ++ y.2.2).flatten := by
      simp [List.append_assoc]
    have htarget2 : noDoubleB ((P ++ x.2.1 ++ x.2.2)
        ++ (rest.map fun y => y.2.1 ++ y.2.2).flatten) = true := by
      have he : P ++ ((x.2.1 ++ x.2.2) :: (rest.map fun y => y.2.1 ++ y.2.2)).flatten
          = (P ++ x.2.1 ++ x.2.2) ++ (rest.map fun y => y.2.1 ++ y.2.2).flatten := by
        rw [List.flatten_cons]
        simp [List.append_assoc]
      rw [← he]
      exact htarget
    rw [hinit2, ih (P ++ x.2.1 ++ x.2.2)
      (fun y hy => hseg y (List.mem_cons_of_mem _ hy)) htarget2]
    simp [List.append_assoc]

/-- Restoring a gap/token interleaving whose tokens are all mapped replaces
each token occurrence in place, provided the restored text has no adjacent
`@@` pair. -/
theorem restore_segJoin (m : List (List Char × List Char)) (g0 : List Char)
    (segs : List (List Char × List Char × List Char))
    (hseg : ∀ x ∈ segs, isFullPlaceholder x.1 = true ∧ assocFind x.1 m = some x.2.1)
    (htarget : noDoubleB (segJoin g0 (segs.map fun x => (x.2.1, x.2.2))) = true) :
    restore_from_placeholders (segJoin g0 (segs.map fun x => (x.1, x.2.2))) m
      = segJoin g0 (segs.map fun x => (x.2.1, x.2.2)) := by
  have hg0 : noDoubleB g0 = true := by
    rw [segJoin] at htarget
    exact noDoubleB_of_append_left _ _ htarget
  have hgaps : ∀ x ∈ segs, noDoubleB x.2.2 = true := by
    intro x hx
    have hmem : x.2.1 ++ x.2.2 ∈ (segs.map fun y => (y.2.1, y.2.2)).map
        (fun sg => sg.1 ++ sg.2) := by
      rw [List.map_map]
      exact List.mem_map_of_mem _ hx
    have hinf : x.2.1 ++ x.2.2 <:+:
        ((segs.map fun y => (y.2.1, y.2.2)).map (fun sg => sg.1 ++ sg.2)).flatten :=
      List.infix_of_mem_flatten hmem
    have hnd := noDoubleB_infix _ _ hinf
      (noDoubleB_of_append_right g0 _ (by rw [segJoin] at htarget; exact htarget))
    exact noDoubleB_of_append_right _ _ hnd
  have hscan : scanTokens (segJoin g0 (segs.map fun x => (x.1, x.2.2)))
      = segs.map Prod.fst := by
    rw [scanTokens_segJoin (segs.map fun x => (x.1, x.2.2)) g0 hg0]
    · rw [List.map_map]
      rfl
    · intro sg hsg
      obtain ⟨x, hx, rfl⟩ := List.mem_map.mp hsg
      exact ⟨(hseg x hx).1, hgaps x hx⟩
  rw [restore_from_placeholders, hscan]
  have h1 : segJoin g0 (segs.map fun x => (x.1, x.2.2))
      = g0 ++ ((segs.map fun x => x.1 ++ x.2.2).flatten) := by
    rw [segJoin, List.map_map]
    rfl
  have h2 : segJoin g0 (segs.map fun x => (x.2.1, x.2.2))
      = g0 ++ ((segs.map fun x => x.2.1 ++ x.2.2).flatten) := by
    rw [segJoin, List.map_map]
    rfl
  rw [h1, h2]
  refine restore_fold_segs m segs g0 hseg ?_
  rw [← h2]
  exact htarget

/-! ## Claim C7: restoration semantics -/

/-- **C7, counterexample.** The claim states that every grammar-matching
token that is a mapping key is replaced (one occurrence per match) and
every non-key token is left untouched verbatim. `str.replace(old, new, 1)`
replaces the first remaining occurrence in the evolving result, which need
not be the scanned match: in `"@@Z@@A_1@@ @@A_1@@"` with mapping
`@@A_1@@ ↦ v`, the scan finds the non-key `@@Z@@` and one key match, but
the replacement hits the key occurrence overlapping `@@Z@@`'s closing
`@@`, destroying the non-key token and leaving the scanned key occurrence
verbatim: the result is `"@@Zv @@A_1@@"`. -/
theorem c7_restore_counterexample :
    restore_from_placeholders ("@@Z@@A_1@@ @@A_1@@".data)
        [(("@@A_1@@".data), ("v".data))]
      = ("@@Zv @@A_1@@".data) ∧
    (("@@Z@@".data) <:+: ("@@Z@@A_1@@ @@A_1@@".data)) ∧
    ¬ (("@@Z@@".data) <:+: ("@@Zv @@A_1@@".data)) ∧
    (("@@A_1@@".data) <:+: ("@@Zv @@A_1@@".data)) := by decide

/-- **C7** (amended): for each scanned grammar token that is a mapping key,
`restore_from_placeholders` replaces the first remaining occurrence of that
token in the evolving result with the key's value — one replacement per
scanned match, not a blanket global substitution, so repeated identical
placeholder tokens are each resolved independently with the same value; a
token that is not a key is never itself selected for replacement, though
its text can be consumed when a key occurrence overlaps it. When the text
is an interleaving of gaps and mapped tokens whose restored form has no
adjacent `@@` pair, every token occurrence is replaced exactly in place. -/
theorem c7_restore_per_match :
    (∀ (m : List (List Char × List Char)) (g0 : List Char)
        (segs : List (List Char × List Char × List Char)),
      (∀ x ∈ segs, isFullPlaceholder x.1 = true ∧ assocFind x.1 m = some x.2.1) →
      noDoubleB (segJoin g0 (segs.map fun x => (x.2.1, x.2.2))) = true →
      restore_from_placeholders (segJoin g0 (segs.map fun x => (x.1, x.2.2))) m
        = segJoin g0 (segs.map fun x => (x.2.1, x.2.2))) ∧
    restore_from_placeholders ("See @@A_1@@ and @@A_1@@ or @@B_2@@".data)
        [(("@@A_1@@".data), ("x".data))]
      = ("See x and x or @@B_2@@".data) :=
  ⟨restore_segJoin, by decide⟩

/-- **C7, witness.** The in-place part applied to a two-token interleaving
with repeated-label mapping keys. -/
theorem c7_restore_per_match_witness :
    restore_from_placeholders
        (segJoin ("Contact ".data)
          [(("@@EMAIL_1@@".data), (" and ".data)),
           (("@@EMAIL_2@@".data), ("".data))])
        [(("@@EMAIL_1@@".data), ("alice@example.com".data)),
         (("@@EMAIL_2@@".data), ("bob@example.com".data))]
      = segJoin ("Contact ".data)
          [(("alice@example.com".data), (" and ".data)),
           (("bob@example.com".data), ("".data))] := by
  have h := c7_restore_per_match.1
    [(("@@EMAIL_1@@".data), ("alice@example.com".data)),
     (("@@EMAIL_2@@".data), ("bob@example.com".data))]
    ("Contact ".data)
    [(("@@EMAIL_1@@".data), ("alice@example.com".data), (" and ".data)),
     (("@@EMAIL_2@@".data), ("bob@example.com".data), ("".data))]
    (by decide) (by decide)
  exact h

/-! ## Decimal digit lemmas -/

theorem digitChar10_class : ∀ k, isClassChar (digitChar10 k) = true := by
  intro k
  match k with
  | 0 | 1 | 2 | 3 | 4 | 5 | 6 | 7 | 8 => decide
  | n + 9 =>
    show isClassChar ('9') = true
    decide

theorem digitChar10_ne_underscore : ∀ k, digitChar10 k ≠ '_' := by
  intro k
  match k with
  | 0 | 1 | 2 | 3 | 4 | 5 | 6 | 7 | 8 => decide
  | n + 9 =>
    show ('9') ≠ '_'
    decide

theorem digitVal_digitChar10 : ∀ k, k < 10 → digitVal (digitChar10 k) = k := by
  intro k hk
  interval_cases k <;> decide

theorem natDigitsGo_acc : ∀ (f n : Nat) (acc : List Char),
    natDigitsGo f n acc = natDigitsGo f n [] ++ acc := by
  intro f
  induction f with
  | zero => intro n acc; rfl
  | succ f ih =>
    intro n acc
    rw [natDigitsGo]
    by_cases h : n < 10
    · rw [if_pos h]
      conv_rhs => rw [natDigitsGo, if_pos h]
      rfl
    · rw [if_neg h, ih (n / 10) (digitChar10 (n % 10) :: acc)]
      conv_rhs => rw [natDigitsGo, if_neg h, ih (n / 10) [digitChar10 (n % 10)]]
      rw [List.append_assoc]
      rfl

theorem natDigitsGo_fuel : ∀ (f1 f2 n : Nat) (acc : List Char), n < f1 → n < f2 →
    natDigitsGo f1 n acc = natDigitsGo f2 n acc := by
  intro f1
  induction f1 with
  | zero => intro f2 n acc h1 _; exact absurd h1 (Nat.not_lt_zero n)
  | succ f ih =>
    intro f2 n acc h1 h2
    cases f2 with
    | zero => exact absurd h2 (Nat.not_lt_zero n)
    | succ g =>
      rw [natDigitsGo, natDigitsGo]
      by_cases h : n < 10
      · rw [if_pos h, if_pos h]
      · rw [if_neg h, if_neg h]
        have hd : n / 10 < n := Nat.div_lt_self (by omega) (by omega)
        exact ih g (n / 10) _ (by omega) (by omega)

theorem natVal_natDigits : ∀ n, natVal (natDigits n) = n := by
  intro n
  induction n using Nat.strong_induction_on with
  | _ n ih =>
    rw [natDigits, natDigitsGo]
    by_cases h : n < 10
    · rw [if_pos h]
      show (0 * 10 + digitVal (digitChar10 n)) = n
      rw [digitVal_digitChar10 n h]
      omega
    · rw [if_neg h, natDigitsGo_acc]
      have hlt : n / 10 < n := Nat.div_lt_self (by omega) (by omega)
      have hf : natDigitsGo n (n / 10) [] = natDigits (n / 10) := by
        rw [natDigits]
        exact natDigitsGo_fuel n (n / 10 + 1) (n / 10) [] (by omega) (by omega)
      rw [hf, natVal, List.foldl_append]
      show (natVal (natDigits (n / 10))) * 10 + digitVal (digitChar10 (n % 10)) = n
      rw [ih (n / 10) hlt, digitVal_digitChar10 _ (Nat.mod_lt n (by omega))]
      omega

theorem natDigits_inj (a b : Nat) (h : natDigits a = natDigits b) : a = b := by
  have ha := natVal_natDigits a
  rw [h, natVal_natDigits] at ha
  exact ha.symm

theorem natDigitsGo_mem_digit : ∀ (f n : Nat) (acc : List Char),
    (∀ c ∈ acc, ∃ k, c = digitChar10 k) →
    ∀ c ∈ natDigitsGo f n acc, ∃ k, c = digitChar10 k := by
  intro f
  induction f with
  | zero => intro n acc hacc; exact hacc
  | succ f ih =>
    intro n acc hacc c hc
    rw [natDigitsGo] at hc
    by_cases h : n < 10
    · rw [if_pos h] at hc
      rcases List.mem_cons.mp hc with he | hm
      · exact ⟨n, he⟩
      · exact hacc c hm
    · rw [if_neg h] at hc
      refine ih (n / 10) _ ?_ c hc
      intro d hd
      rcases List.mem_cons.mp hd with he | hm
      · exact ⟨n % 10, he⟩
      · exact hacc d hm

theorem natDigits_mem_digit (n : Nat) : ∀ c ∈ natDigits n, ∃ k, c = digitChar10 k :=
  natDigitsGo_mem_digit (n + 1) n [] (by intro c hc; cases hc)

theorem natDigits_all_class (n : Nat) : (natDigits n).all isClassChar = true := by
  rw [List.all_eq_true]
  intro c hc
  obtain ⟨k, rfl⟩ := natDigits_mem_digit n c hc
  exact digitChar10_class k

theorem natDigits_not_underscore (n : Nat) : '_' ∉ natDigits n := by
  intro hm
  obtain ⟨k, hk⟩ := natDigits_mem_digit n '_' hm
  exact digitChar10_ne_underscore k hk.symm

theorem natDigitsGo_ne_nil : ∀ (f n : Nat) (acc : List Char),
    natDigitsGo (f + 1) n acc ≠ [] := by
  intro f
  induction f with
  | zero =>
    intro n acc
    rw [natDigitsGo]
    by_cases h : n < 10
    · rw [if_pos h]; exact List.cons_ne_nil _ _
    · rw [if_neg h]; exact List.cons_ne_nil _ _
  | succ f ih =>
    intro n acc
    rw [natDigitsGo]
    by_cases h : n < 10
    · rw [if_pos h]; exact List.cons_ne_nil _ _
    · rw [if_neg h]; exact ih (n / 10) _

theorem natDigits_ne_nil (n : Nat) : natDigits n ≠ [] :=
  natDigitsGo_ne_nil n n []

/-! ## Placeholder token lemmas -/

/-- Splitting at the first underscore of a string is unambiguous. -/
theorem underscore_split : ∀ (a1 : List Char), '_' ∉ a1 →
    ∀ (a2 b1 b2 : List Char), '_' ∉ a2 →
      a1 ++ '_' :: b1 = a2 ++ '_' :: b2 → a1 = a2 ∧ b1 = b2 := by
  intro a1
  induction a1 with
  | nil =>
    intro _ a2 b1 b2 h2 heq
    cases a2 with
    | nil =>
      injection heq with _ h
      exact ⟨rfl, h⟩
    | cons c a3 =>
      injection heq with hc _
      refine absurd ?_ h2
      rw [hc]
      exact List.mem_cons_self _ _
  | cons c a1' ih =>
    intro h1 a2 b1 b2 h2 heq
    cases a2 with
    | nil =>
      injection heq with hc _
      refine absurd ?_ h1
      rw [← hc]
      exact List.mem_cons_self _ _
    | cons d a2' =>
      injection heq with hcd h
      obtain ⟨ha, hb⟩ := ih (fun hm => h1 (List.mem_cons_of_mem _ hm)) a2' b1 b2
        (fun hm => h2 (List.mem_cons_of_mem _ hm)) h
      exact ⟨by rw [hcd, ha], hb⟩

/-- Placeholder tokens are built injectively from (label, number). -/
theorem mkPlaceholder_inj (l1 l2 : List Char) (c1 c2 : Nat)
    (h : mkPlaceholder l1 c1 = mkPlaceholder l2 c2) : l1 = l2 ∧ c1 = c2 := by
  rw [mkPlaceholder, mkPlaceholder] at h
  injection h with _ h
  injection h with _ h
  have h2 : l1 ++ '_' :: natDigits c1 = l2 ++ '_' :: natDigits c2 :=
    List.append_cancel_right h
  have hrev : (natDigits c1).reverse ++ '_' :: l1.reverse
      = (natDigits c2).reverse ++ '_' :: l2.reverse := by
    have h3 := congrArg List.reverse h2
    simpa [List.reverse_append] using h3
  have hnd1 : '_' ∉ (natDigits c1).reverse := by
    rw [List.mem_reverse]; exact natDigits_not_underscore c1
  have hnd2 : '_' ∉ (natDigits c2).reverse := by
    rw [List.mem_reverse]; exact natDigits_not_underscore c2
  obtain ⟨hd, hl⟩ := underscore_split _ hnd1 _ _ _ hnd2 hrev
  constructor
  · exact List.reverse_injective hl
  · exact natDigits_inj c1 c2 (List.reverse_injective hd)

/-- A placeholder over a class-character label is a well-formed token. -/
theorem isFullPlaceholder_mk (l : List Char) (c : Nat)
    (hl : l.all isClassChar = true) :
    isFullPlaceholder (mkPlaceholder l c) = true := by
  rw [isFullPlaceholder_iff]
  refine ⟨l ++ '_' :: natDigits c, by simp, ?_, rfl⟩
  rw [List.all_append, hl, Bool.true_and, List.all_cons]
  rw [show isClassChar '_' = true from by decide, Bool.true_and]
  exact natDigits_all_class c

/-! ## Association list and dict-assignment lemmas -/

theorem assocFind_append {α : Type} (m1 m2 : List (List Char × α)) (k : List Char) :
    assocFind k (m1 ++ m2)
      = match assocFind k m1 with
        | some v => some v
        | none => assocFind k m2 := by
  induction m1 with
  | nil => rfl
  | cons kv rest ih =>
    rw [List.cons_append, assocFind, assocFind]
    by_cases h : kv.1 = k
    · rw [if_pos h, if_pos h]
    · rw [if_neg h, if_neg h]
      exact ih

theorem assocFind_of_mem {α : Type} : ∀ (m : List (List Char × α)) (k : List Char) (v : α),
    (k, v) ∈ m → (m.map Prod.fst).Nodup → assocFind k m = some v := by
  intro m
  induction m with
  | nil => intro k v h; cases h
  | cons kv rest ih =>
    intro k v h hnd
    rw [List.map_cons, List.nodup_cons] at hnd
    rcases List.mem_cons.mp h with he | hm
    · rw [← he, assocFind, if_pos rfl]
    · by_cases hk : kv.1 = k
      · exact absurd (hk ▸ List.mem_map_of_mem Prod.fst hm) hnd.1
      · rw [assocFind, if_neg hk]
        exact ih k v hm hnd.2

theorem dictSet_fresh {α : Type} (m : List (List Char × α)) (k : List Char) (v : α)
    (h : k ∉ m.map Prod.fst) : dictSet m k v = m ++ [(k, v)] := by
  rw [dictSet, if_neg]
  intro hc
  rw [List.any_eq_true] at hc
  obtain ⟨kv, hkv, he⟩ := hc
  rw [decide_eq_true_eq] at he
  exact h (he ▸ List.mem_map_of_mem Prod.fst hkv)

theorem assocFind_overwrite {α : Type} :
    ∀ (m : List (List Char × α)) (k : List Char) (v : α),
      (m.any fun kv => decide (kv.1 = k)) = true →
      assocFind k (m.map (fun kv => if kv.1 = k then (k, v) else kv)) = some v := by
  intro m
  induction m with
  | nil => intro k v h; exact absurd h (by simp)
  | cons kv rest ih =>
    intro k v h
    by_cases hk : kv.1 = k
    · rw [List.map_cons, if_pos hk, assocFind, if_pos rfl]
    · rw [List.map_cons, if_neg hk, assocFind, if_neg hk]
      apply ih
      rw [List.any_cons] at h
      have hd : decide (kv.1 = k) = false := decide_eq_false hk
      rw [hd, Bool.false_or] at h
      exact h

theorem assocFind_dictSet_self {α : Type} (m : List (List Char × α))
    (k : List Char) (v : α) : assocFind k (dictSet m k v) = some v := by
  rw [dictSet]
  by_cases h : (m.any fun kv => decide (kv.1 = k)) = true
  · rw [if_pos h]
    exact assocFind_overwrite m k v h
  · rw [if_neg h, assocFind_append]
    have hn : assocFind k m = none := by
      apply assocFind_eq_none
      intro hm
      apply h
      rw [List.any_eq_true]
      obtain ⟨kv, hkv, he⟩ := List.mem_map.mp hm
      exact ⟨kv, hkv, decide_eq_true he⟩
    simp only [hn]
    show assocFind k [(k, v)] = some v
    rw [assocFind, if_pos rfl]

theorem assocFind_map_overwrite_other {α : Type} (k k2 : List Char) (v : α)
    (h : ¬ k2 = k) :
    ∀ (m : List (List Char × α)),
      assocFind k2 (m.map (fun kv => if kv.1 = k then (k, v) else kv))
        = assocFind k2 m := by
  intro m
  induction m with
  | nil => rfl
  | cons kv rest ih =>
    rw [List.map_cons, assocFind]
    by_cases hk : kv.1 = k
    · rw [if_pos hk]
      rw [if_neg (fun hh : (k, v).1 = k2 => h hh.symm), assocFind,
        if_neg (fun hh => h (by rw [← hh, hk]))]
      exact ih
    · rw [if_neg hk, assocFind]
      by_cases hk2 : kv.1 = k2
      · rw [if_pos hk2, if_pos hk2]
      · rw [if_neg hk2, if_neg hk2]
        exact ih

theorem assocFind_dictSet_other {α : Type} (m : List (List Char × α))
    (k k2 : List Char) (v : α) (h : ¬ k2 = k) :
    assocFind k2 (dictSet m k v) = assocFind k2 m := by
  rw [dictSet]
  by_cases hany : (m.any fun kv => decide (kv.1 = k)) = true
  · rw [if_pos hany]
    exact assocFind_map_overwrite_other k k2 v h m
  · rw [if_neg hany, assocFind_append]
    cases hm : assocFind k2 m with
    | some w => rfl
    | none =>
      show assocFind k2 [(k, v)] = none
      rw [assocFind, if_neg (fun hh => h hh.symm)]
      rfl

/-! ## The mapping produced by sanitization -/

theorem labelCount_cons (l : List Char) (e : EntitySpan) (es : List EntitySpan) :
    labelCount l (e :: es) = (if e.label = l then 1 else 0) + labelCount l es := by
  by_cases h : e.label = l <;>
    simp [labelCount, List.filter_cons, h, Nat.add_comm]

theorem mappingFor_keys_spec : ∀ (es : List EntitySpan) (p : List Char),
    p ∈ (mappingFor es).map Prod.fst →
    ∃ l k, p = mkPlaceholder l k ∧ 1 ≤ k ∧ k ≤ labelCount l es := by
  intro es
  induction es with
  | nil => intro p hp; cases hp
  | cons e es' ih =>
    intro p hp
    rw [mappingFor, List.map_append, List.mem_append] at hp
    rcases hp with hp | hp
    · obtain ⟨l, k, h1, h2, h3⟩ := ih p hp
      refine ⟨l, k, h1, h2, ?_⟩
      rw [labelCount_cons]
      omega
    · simp only [List.map_cons, List.map_nil, List.mem_singleton] at hp
      refine ⟨e.label, labelCount e.label es' + 1, hp, by omega, ?_⟩
      rw [labelCount_cons, if_pos rfl]
      omega

theorem mappingFor_key_fresh (e : EntitySpan) (es' : List EntitySpan) :
    mkPlaceholder e.label (labelCount e.label es' + 1) ∉ (mappingFor es').map Prod.fst := by
  intro hmem
  obtain ⟨l, k, h1, h2, h3⟩ := mappingFor_keys_spec es' _ hmem
  obtain ⟨hl, hk⟩ := mkPlaceholder_inj _ _ _ _ h1
  rw [← hl] at h3
  omega

theorem mappingFor_keys_nodup : ∀ es : List EntitySpan,
    ((mappingFor es).map Prod.fst).Nodup := by
  intro es
  induction es with
  | nil => exact List.nodup_nil
  | cons e es' ih =>
    rw [mappingFor, List.map_append, List.nodup_append]
    refine ⟨ih, by simp, ?_⟩
    intro a ha hb
    simp only [List.map_cons, List.map_nil, List.mem_singleton] at hb
    rw [hb] at ha
    exact mappingFor_key_fresh e es' ha

theorem segsFor_cons (T : List Char) (e : EntitySpan) (es' : List EntitySpan) :
    segsFor T (e :: es')
      = (mkPlaceholder e.label (labelCount e.label es' + 1),
         e.text,
         match es' with
         | [] => T.drop e.stop
         | e2 :: _ => (T.take e2.start).drop e.stop) :: segsFor T es' := rfl

theorem segsFor_mem_mapping (T : List Char) : ∀ (es : List EntitySpan) (x),
    x ∈ segsFor T es → (x.1, x.2.1) ∈ mappingFor es := by
  intro es
  induction es with
  | nil => intro x hx; cases hx
  | cons e es' ih =>
    intro x hx
    rw [segsFor_cons] at hx
    rcases List.mem_cons.mp hx with he | hm
    · rw [mappingFor, he]
      exact List.mem_append_right _ (List.mem_singleton_self _)
    · exact List.mem_append_left _ (ih x hm)

theorem segsFor_tok (T : List Char) : ∀ (es : List EntitySpan) (x),
    x ∈ segsFor T es → ∃ e ∈ es, ∃ k, x.1 = mkPlaceholder e.label k := by
  intro es
  induction es with
  | nil => intro x hx; cases hx
  | cons e es' ih =>
    intro x hx
    rw [segsFor_cons] at hx
    rcases List.mem_cons.mp hx with he | hm
    · exact ⟨e, List.mem_cons_self _ _, labelCount e.label es' + 1, by rw [he]⟩
    · obtain ⟨f, hf, k, hk⟩ := ih x hm
      exact ⟨f, List.mem_cons_of_mem _ hf, k, hk⟩

/-! ## The replacement fold characterized -/

theorem sortInsert_all_neg (le : EntitySpan → EntitySpan → Bool) (a : EntitySpan) :
    ∀ l : List EntitySpan, (∀ x ∈ l, le a x = false) → sortInsert le a l = l ++ [a] := by
  intro l
  induction l with
  | nil => intro _; rfl
  | cons b rest ih =>
    intro h
    rw [sortInsert, if_neg (by rw [h b (List.mem_cons_self _ _)]; exact Bool.false_ne_true),
      ih (fun x hx => h x (List.mem_cons_of_mem _ hx)), List.cons_append]

/-- Python's descending stable sort reverses a strictly ascending list. -/
theorem stableSortBy_desc_of_ascending : ∀ es : List EntitySpan,
    List.Pairwise (fun a b => a.start < b.start) es →
    stableSortBy descStartLe es = es.reverse := by
  intro es
  induction es with
  | nil => intro _; rfl
  | cons e rest ih =>
    intro h
    show sortInsert descStartLe e (stableSortBy descStartLe rest) = _
    rw [ih (List.Pairwise.of_cons h), sortInsert_all_neg]
    · rw [List.reverse_cons]
    · intro x hx
      rw [List.mem_reverse] at hx
      have hlt := (List.pairwise_cons.mp h).1 x hx
      rw [descStartLe]
      exact decide_eq_false (by omega)

/-- The replacement loop of `replace_with_placeholders`, processed over a
start-ascending span list from the right (= descending start order):
sanitized text shape, accumulated mapping, and counter state. -/
theorem rwp_foldr_spec (T : List Char) : ∀ (es : List EntitySpan),
    List.Pairwise (fun a b => a.stop ≤ b.start) es →
    (∀ e ∈ es, e.start < e.stop) →
    (∀ e ∈ es, e.stop ≤ T.length) →
    ∃ cs, es.foldr (fun e st => rwpStep st e) (T, [], [])
      = (rwpText T es, mappingFor es, cs)
      ∧ ∀ l, (assocFind l cs).getD 0 = labelCount l es := by
  intro es
  induction es with
  | nil =>
    intro _ _ _
    exact ⟨[], rfl, fun l => rfl⟩
  | cons e es' ih =>
    intro hpair hwf hbound
    obtain ⟨cs', hfold, hcs⟩ := ih (List.Pairwise.of_cons hpair)
      (fun f hf => hwf f (List.mem_cons_of_mem _ hf))
      (fun f hf => hbound f (List.mem_cons_of_mem _ hf))
    rw [List.foldr_cons, hfold]
    have hc : ((assocFind e.label cs').getD 0) + 1 = labelCount e.label es' + 1 := by
      rw [hcs e.label]
    refine ⟨dictSet cs' e.label (labelCount e.label es' + 1), ?_, ?_⟩
    · have hmap : dictSet (mappingFor es')
            (mkPlaceholder e.label ((assocFind e.label cs').getD 0 + 1)) e.text
          = mappingFor (e :: es') := by
        rw [hc, dictSet_fresh _ _ _ (mappingFor_key_fresh e es'), mappingFor]
      have htext : (rwpText T es').take e.start
            ++ mkPlaceholder e.label ((assocFind e.label cs').getD 0 + 1)
            ++ (rwpText T es').drop e.stop
          = rwpText T (e :: es') := by
        rw [hc]
        cases es' with
        | nil =>
          show T.take e.start ++ _ ++ T.drop e.stop = _
          rw [rwpText, segsFor_cons]
          simp [segsFor, List.append_assoc]
        | cons e2 es'' =>
          have h1 : e.stop ≤ e2.start :=
            (List.pairwise_cons.mp hpair).1 e2 (List.mem_cons_self _ _)
          have h2 : e.start < e.stop := hwf e (List.mem_cons_self _ _)
          have h3 : e.stop ≤ T.length := hbound e (List.mem_cons_self _ _)
          have h4 : e2.start ≤ T.length := by
            have := hwf e2 (List.mem_cons_of_mem _ (List.mem_cons_self _ _))
            have := hbound e2 (List.mem_cons_of_mem _ (List.mem_cons_self _ _))
            omega
          have htake : (rwpText T (e2 :: es'')).take e.start = T.take e.start := by
            rw [rwpText, List.take_append_of_le_length, List.take_take,
              Nat.min_eq_left (by omega)]
            rw [List.length_take]
            omega
          have hdrop : (rwpText T (e2 :: es'')).drop e.stop
              = (T.take e2.start).drop e.stop
                ++ ((segsFor T (e2 :: es'')).map fun x => x.1 ++ x.2.2).flatten := by
            rw [rwpText, List.drop_append_of_le_length]
            rw [List.length_take]
            omega
          rw [htake, hdrop, rwpText]
          simp [segsFor_cons, List.append_assoc]
      show (((rwpText T es').take e.start
            ++ mkPlaceholder e.label ((assocFind e.label cs').getD 0 + 1)
            ++ (rwpText T es').drop e.stop),
          dictSet (mappingFor es')
            (mkPlaceholder e.label ((assocFind e.label cs').getD 0 + 1)) e.text,
          dictSet cs' e.label ((assocFind e.label cs').getD 0 + 1))
          = (rwpText T (e :: es'), mappingFor (e :: es'),
             dictSet cs' e.label (labelCount e.label es' + 1))
      rw [htext, hmap, hc]
    · intro l
      by_cases hl : l = e.label
      · rw [hl, assocFind_dictSet_self, labelCount_cons, if_pos rfl, Option.getD_some]
        omega
      · rw [assocFind_dictSet_other cs' e.label l _ hl, hcs l, labelCount_cons,
          if_neg (fun hh => hl hh.symm)]
        omega

/-- `replace_with_placeholders` on a detector-shaped span list. -/
theorem replace_with_placeholders_spec (T : List Char) (es : List EntitySpan)
    (hpair : List.Pairwise (fun a b => a.stop ≤ b.start) es)
    (hwf : ∀ e ∈ es, e.start < e.stop)
    (hbound : ∀ e ∈ es, e.stop ≤ T.length) :
    replace_with_placeholders T es = (rwpText T es, mappingFor es) := by
  rw [replace_with_placeholders]
  by_cases hne : es.isEmpty
  · rw [if_pos hne]
    cases es with
    | nil => rfl
    | cons e es' => exact absurd hne (by simp)
  · rw [if_neg hne]
    have hasc : List.Pairwise (fun a b => a.start < b.start) es := by
      refine hpair.imp_of_mem ?_
      intro a b ha hb hab
      have := hwf a ha
      omega
    rw [stableSortBy_desc_of_ascending es hasc, List.foldl_reverse]
    obtain ⟨cs, hfold, _⟩ := rwp_foldr_spec T es hpair hwf hbound
    have hfold2 : es.foldr (fun e st => rwpStep st e) (T, [], [])
        = (rwpText T es, mappingFor es, cs) := hfold
    rw [show (fun (x : EntitySpan)
          (y : List Char × List (List Char × List Char) × List (List Char × Nat)) =>
          rwpStep y x) = (fun e st => rwpStep st e) from rfl, hfold2]

/-! ## Reassembly of the original text -/

theorem tailAssemble_cons (T : List Char) (p : Nat) (e : EntitySpan)
    (es' : List EntitySpan) :
    tailAssemble T p (e :: es')
      = (T.take e.start).drop p ++ (e.text ++ tailAssemble T e.stop es') := by
  cases es' with
  | nil =>
    rw [tailAssemble, tailAssemble, segsFor_cons]
    simp [show segsFor T [] = ([] : List (List Char × List Char × List Char)) from rfl,
      List.append_assoc]
  | cons e2 es'' =>
    rw [tailAssemble, tailAssemble, segsFor_cons]
    simp [List.append_assoc]

theorem take_drop_glue (X : List Char) (p c : Nat) (hp : p ≤ c) (hc : c ≤ X.length) :
    (X.take c).drop p ++ X.drop c = X.drop p := by
  conv_rhs => rw [← List.take_append_drop c X]
  rw [List.drop_append_of_le_length]
  rw [List.length_take]
  omega

theorem tailAssemble_eq_drop (T : List Char) : ∀ (es : List EntitySpan) (p : Nat),
    List.Pairwise (fun a b => a.stop ≤ b.start) es →
    (∀ e ∈ es, e.start < e.stop) →
    (∀ e ∈ es, e.stop ≤ T.length) →
    (∀ e ∈ es, e.text = sliceOf T e) →
    (∀ e ∈ es, p ≤ e.start) →
    tailAssemble T p es = T.drop p := by
  intro es
  induction es with
  | nil => intro p _ _ _ _ _; rfl
  | cons e es' ih =>
    intro p hpair hwf hbound htext hp
    have he1 : e.start < e.stop := hwf e (List.mem_cons_self _ _)
    have he2 : e.stop ≤ T.length := hbound e (List.mem_cons_self _ _)
    rw [tailAssemble_cons, htext e (List.mem_cons_self _ _), sliceOf,
      ih e.stop (List.Pairwise.of_cons hpair)
        (fun f hf => hwf f (List.mem_cons_of_mem _ hf))
        (fun f hf => hbound f (List.mem_cons_of_mem _ hf))
        (fun f hf => htext f (List.mem_cons_of_mem _ hf))
        (fun f hf => (List.pairwise_cons.mp hpair).1 f hf),
      take_drop_glue T e.start e.stop (by omega) he2]
    exact take_drop_glue T p e.start (hp e (List.mem_cons_self _ _)) (by omega)

/-! ## Remaining pipeline bridges -/

theorem restore_from_placeholders_nil (text : List Char) :
    restore_from_placeholders text [] = text := by
  rw [restore_from_placeholders]
  generalize scanTokens text = toks
  induction toks generalizing text with
  | nil => rfl
  | cons t ts ih => exact ih text

theorem decryptMapping_encrypt (kms : KMS)
    (hk : ∀ b, kms.decrypt (kms.encrypt b) = some b) :
    ∀ m : List (List Char × List Char),
      decryptMapping kms (m.map fun kv => (kv.1, kms.encrypt kv.2)) = m := by
  intro m
  induction m with
  | nil => rfl
  | cons kv rest ih =>
    rw [List.map_cons, decryptMapping_cons]
    simp only [hk kv.2]
    rw [ih]

theorem detect_subset (cands : List EntitySpan) :
    ∀ x ∈ detect cands, x ∈ cands :=
  fun x hx => remove_overlapping_subset cands x
    ((detect_perm_remove_overlapping cands).mem_iff.mp hx)

theorem detect_pairwise (cands : List EntitySpan)
    (hwf : ∀ e ∈ cands, e.start < e.stop) :
    List.Pairwise (fun a b => a.stop ≤ b.start) (detect cands) := by
  have hsor := detect_sorted cands
  have hchain := remove_overlapping_pairwise cands hwf
  have hsym : List.Pairwise
      (fun a b => a.stop ≤ b.start ∨ b.stop ≤ a.start)
      (remove_overlapping cands) := hchain.imp (fun h => Or.inl h)
  have hperm := detect_perm_remove_overlapping cands
  have hnov : List.Pairwise
      (fun a b => a.stop ≤ b.start ∨ b.stop ≤ a.start) (detect cands) :=
    (List.Perm.pairwise_iff
      (fun {a b} h => h.symm.imp (fun x => x) (fun x => x)) hperm).mpr hsym
  have hand := hsor.and hnov
  refine hand.imp_of_mem ?_
  intro a b ha hb hab
  rcases hab.2 with h | h
  · exact h
  · have hbwf : b.start < b.stop :=
      hwf b (remove_overlapping_subset cands b (hperm.mem_iff.mp hb))
    omega

theorem rwpText_segJoin (T : List Char) (e : EntitySpan) (es' : List EntitySpan) :
    rwpText T (e :: es')
      = segJoin (T.take e.start)
          ((segsFor T (e :: es')).map fun x => (x.1, x.2.2)) := by
  rw [rwpText, segJoin, List.map_map]
  rfl

theorem segJoin_vals_eq_self (T : List Char) (e : EntitySpan) (es' : List EntitySpan)
    (hpair : List.Pairwise (fun a b => a.stop ≤ b.start) (e :: es'))
    (hwf : ∀ f ∈ e :: es', f.start < f.stop)
    (hbound : ∀ f ∈ e :: es', f.stop ≤ T.length)
    (htext : ∀ f ∈ e :: es', f.text = sliceOf T f) :
    segJoin (T.take e.start)
        ((segsFor T (e :: es')).map fun x => (x.2.1, x.2.2)) = T := by
  have h := tailAssemble_eq_drop T (e :: es') 0 hpair hwf hbound htext
    (fun f _ => Nat.zero_le _)
  rw [tailAssemble, List.drop_zero] at h
  rw [segJoin, List.map_map]
  rw [show ((fun sg : List Char × List Char => sg.1 ++ sg.2)
      ∘ (fun x : List Char × List Char × List Char => (x.2.1, x.2.2)))
    = (fun x : List Char × List Char × List Char => x.2.1 ++ x.2.2) from rfl]
  rw [← List.drop_zero (T.take e.start)] at h ⊢
  exact h

/-! ## Claim C1: round-trip restoration -/

/-- **C1, counterexample.** The claim asserts the round trip for every text
on which the detector reports entities, given correct decryption (the
identity service here decrypts perfectly). Evaluating the components that
run — the codec on the detector's spans, and `restore_response` on a result
carrying the codec's encrypted mapping (the pipeline wrapper itself raises,
see C3) — at `T = "@@EMAIL_1@@ x@y.zz"`, a text already containing a
placeholder-grammar token, with the email span the EMAIL regex genuinely
reports: sanitization yields `"@@EMAIL_1@@ @@EMAIL_1@@"`, and restoration
replaces both occurrences, returning `"x@y.zz x@y.zz" ≠ T`. -/
theorem c1_roundtrip_counterexample :
    detect [⟨("EMAIL".data), 12, 18, ("x@y.zz".data)⟩] ≠ [] ∧
    restore_response idKMS
      (replace_with_placeholders ("@@EMAIL_1@@ x@y.zz".data)
        (detect [⟨("EMAIL".data), 12, 18, ("x@y.zz".data)⟩])).1
      { sanitized_text := (replace_with_placeholders ("@@EMAIL_1@@ x@y.zz".data)
          (detect [⟨("EMAIL".data), 12, 18, ("x@y.zz".data)⟩])).1,
        mapping := (replace_with_placeholders ("@@EMAIL_1@@ x@y.zz".data)
          (detect [⟨("EMAIL".data), 12, 18, ("x@y.zz".data)⟩])).2.map
          fun kv => (kv.1, idKMS.encrypt kv.2),
        original_text := ("@@EMAIL_1@@ x@y.zz".data),
        session_id := ("s".data),
        entities := detect [⟨("EMAIL".data), 12, 18, ("x@y.zz".data)⟩] }
      ≠ ("@@EMAIL_1@@ x@y.zz".data) := by decide

/-- **C1** (amended): the pipeline-level composition of the claim never
completes in the source (`sanitize_prompt` raises `TypeError`, recorded
under C3), so the round trip is stated over the components that run. For
every text `T` containing no two adjacent `'@'` characters (so `T` holds no
placeholder-grammar collisions) and every detector candidate list of
well-formed spans of `T` (`start < end ≤ |T|`, span text equal to the
covered slice, labels drawn from `[A-Z_0-9]`), `restore_response` applied
to the codec's sanitized text and a `SanitizedResult` carrying the codec's
mapping with encrypted values — the result the pipeline describes — returns
exactly `T`, provided the encryption service decrypts every value it
encrypted back to the original bytes. -/
theorem c1_roundtrip (kms : KMS) (T : List Char)
    (cands : List EntitySpan) (sid : List Char)
    (hT : noDoubleB T = true)
    (hcand : ∀ e ∈ cands, e.start < e.stop ∧ e.stop ≤ T.length
      ∧ e.text = sliceOf T e ∧ e.label.all isClassChar = true)
    (hk : ∀ b, kms.decrypt (kms.encrypt b) = some b) :
    restore_response kms (replace_with_placeholders T (detect cands)).1
      { sanitized_text := (replace_with_placeholders T (detect cands)).1,
        mapping := (replace_with_placeholders T (detect cands)).2.map
          fun kv => (kv.1, kms.encrypt kv.2),
        original_text := T, session_id := sid, entities := detect cands }
      = T := by
  have hmem : ∀ e ∈ detect cands, e ∈ cands := detect_subset cands
  have hwf : ∀ e ∈ detect cands, e.start < e.stop :=
    fun e he => (hcand e (hmem e he)).1
  have hbound : ∀ e ∈ detect cands, e.stop ≤ T.length :=
    fun e he => (hcand e (hmem e he)).2.1
  have htext : ∀ e ∈ detect cands, e.text = sliceOf T e :=
    fun e he => (hcand e (hmem e he)).2.2.1
  have hlab : ∀ e ∈ detect cands, e.label.all isClassChar = true :=
    fun e he => (hcand e (hmem e he)).2.2.2
  have hpair := detect_pairwise cands (fun e he => (hcand e he).1)
  have hrwp := replace_with_placeholders_spec T (detect cands) hpair hwf hbound
  rw [restore_response]
  show restore_from_placeholders (replace_with_placeholders T (detect cands)).1
    (decryptMapping kms ((replace_with_placeholders T (detect cands)).2.map
      fun kv => (kv.1, kms.encrypt kv.2))) = T
  rw [hrwp]
  show restore_from_placeholders (rwpText T (detect cands))
    (decryptMapping kms ((mappingFor (detect cands)).map
      fun kv => (kv.1, kms.encrypt kv.2))) = T
  rw [decryptMapping_encrypt kms hk]
  cases hdet : detect cands with
  | nil =>
    rw [show rwpText T [] = T from rfl, show mappingFor [] = [] from rfl]
    exact restore_from_placeholders_nil T
  | cons e es' =>
    rw [hdet] at hpair hwf hbound htext hlab
    have hseg : ∀ x ∈ segsFor T (e :: es'),
        isFullPlaceholder x.1 = true
          ∧ assocFind x.1 (mappingFor (e :: es')) = some x.2.1 := by
      intro x hx
      constructor
      · obtain ⟨f, hf, k, hk2⟩ := segsFor_tok T (e :: es') x hx
        rw [hk2]
        exact isFullPlaceholder_mk f.label k (hlab f hf)
      · exact assocFind_of_mem _ x.1 x.2.1 (segsFor_mem_mapping T _ x hx)
          (mappingFor_keys_nodup _)
    have htarget_eq := segJoin_vals_eq_self T e es' hpair hwf hbound htext
    have htarget : noDoubleB (segJoin (T.take e.start)
        ((segsFor T (e :: es')).map fun x => (x.2.1, x.2.2))) = true := by
      rw [htarget_eq]
      exact hT
    rw [rwpText_segJoin,
      restore_segJoin (mappingFor (e :: es')) (T.take e.start)
        (segsFor T (e :: es')) hseg htarget, htarget_eq]

/-- **C2** (amended): `replace_with_placeholders` numbers same-label
entities in its processing order, which is start-DESCENDING: of two
non-overlapping spans with the same label, the later-in-text span receives
sequence number 1 and the earlier one number 2, and the mapping lists the
later span's entry first. -/
theorem c2_numbering (T : List Char) (e1 e2 : EntitySpan)
    (hlab : e1.label = e2.label)
    (h12 : e1.stop ≤ e2.start)
    (hwf1 : e1.start < e1.stop) (hwf2 : e2.start < e2.stop)
    (hbound : e2.stop ≤ T.length) :
    replace_with_placeholders T [e1, e2]
      = (T.take e1.start ++ mkPlaceholder e1.label 2
          ++ (T.take e2.start).drop e1.stop
          ++ mkPlaceholder e2.label 1 ++ T.drop e2.stop,
         [(mkPlaceholder e2.label 1, e2.text),
          (mkPlaceholder e1.label 2, e1.text)]) := by
  have hpair : List.Pairwise (fun a b => a.stop ≤ b.start) [e1, e2] := by
    refine List.Pairwise.cons ?_ (List.pairwise_singleton _ _)
    intro b hb
    rw [List.mem_singleton] at hb
    rw [hb]
    exact h12
  have hwf : ∀ e ∈ [e1, e2], e.start < e.stop := by
    intro e he
    rcases List.mem_cons.mp he with h | h
    · rw [h]; exact hwf1
    · rw [List.mem_singleton] at h; rw [h]; exact hwf2
  have hbounds : ∀ e ∈ [e1, e2], e.stop ≤ T.length := by
    intro e he
    rcases List.mem_cons.mp he with h | h
    · rw [h]; omega
    · rw [List.mem_singleton] at h; rw [h]; exact hbound
  rw [replace_with_placeholders_spec T [e1, e2] hpair hwf hbounds]
  have hc : labelCount e1.label [e2] = 1 := by
    simp [labelCount, hlab]
  have h1 : rwpText T [e1, e2]
      = T.take e1.start ++ mkPlaceholder e1.label 2
          ++ (T.take e2.start).drop e1.stop
          ++ mkPlaceholder e2.label 1 ++ T.drop e2.stop := by
    simp [rwpText, segsFor, hc, show labelCount e2.label [] = 0 from rfl,
      List.append_assoc]
  have h2 : mappingFor [e1, e2]
      = [(mkPlaceholder e2.label 1, e2.text),
         (mkPlaceholder e1.label 2, e1.text)] := by
    simp [mappingFor, hc, show labelCount e2.label [] = 0 from rfl]
  rw [h1, h2]

/-- **C2, witness.** The spec's own two-email example: alice (earlier)
becomes `@@EMAIL_2@@`, bob (later) becomes `@@EMAIL_1@@`. -/
theorem c2_numbering_witness :
    replace_with_placeholders ("Contact alice@example.com and bob@example.com".data)
      [⟨("EMAIL".data), 8, 25, ("alice@example.com".data)⟩,
       ⟨("EMAIL".data), 30, 45, ("bob@example.com".data)⟩]
      = (("Contact @@EMAIL_2@@ and @@EMAIL_1@@".data),
         [(("@@EMAIL_1@@".data), ("bob@example.com".data)),
          (("@@EMAIL_2@@".data), ("alice@example.com".data))]) := by
  rw [c2_numbering ("Contact alice@example.com and bob@example.com".data)
    ⟨("EMAIL".data), 8, 25, ("alice@example.com".data)⟩
    ⟨("EMAIL".data), 30, 45, ("bob@example.com".data)⟩
    rfl (by decide) (by decide) (by decide) (by decide)]
  decide

/-- **C1, witness.** The round trip at the identity encryption service for
`"Email john@example.com about the meeting."` with its EMAIL span. -/
theorem c1_roundtrip_witness :
    noDoubleB ("Email john@example.com about the meeting.".data) = true ∧
    restore_response idKMS
      (replace_with_placeholders
        ("Email john@example.com about the meeting.".data)
        (detect [⟨("EMAIL".data), 6, 22, ("john@example.com".data)⟩])).1
      { sanitized_text := (replace_with_placeholders
          ("Email john@example.com about the meeting.".data)
          (detect [⟨("EMAIL".data), 6, 22, ("john@example.com".data)⟩])).1,
        mapping := (replace_with_placeholders
          ("Email john@example.com about the meeting.".data)
          (detect [⟨("EMAIL".data), 6, 22, ("john@example.com".data)⟩])).2.map
          fun kv => (kv.1, idKMS.encrypt kv.2),
        original_text := ("Email john@example.com about the meeting.".data),
        session_id := ("s".data),
        entities := detect [⟨("EMAIL".data), 6, 22, ("john@example.com".data)⟩] }
      = ("Email john@example.com about the meeting.".data) :=
  ⟨by decide,
   c1_roundtrip idKMS ("Email john@example.com about the meeting.".data)
     [⟨("EMAIL".data), 6, 22, ("john@example.com".data)⟩] ("s".data)
     (by decide) (by decide) (fun b => rfl)⟩

end Redacta
